import Mathlib

/-!
Verification of the hometree deploy/verify/watch core against its
natural-language specification.

The development shallowly embeds the Rust sources of the repository:

* `crates/hometree-cli/src/debounce.rs`  — the `Debounce` queue;
* `crates/hometree-cli/src/daemon.rs`    — the `Backoff` strategy and the
  main loop of the watch daemon, modelled as a step function on an explicit
  state, with the environment (control messages, watcher events, the result
  of reading the inhibit marker, lock availability, the clock) supplied as
  inputs of one loop iteration;
* `crates/hometree-core/src/inhibit.rs`  — the inhibit marker; the RFC3339
  parser of the `time` crate is an external collaborator and enters as an
  abstract `parse` function;
* `crates/hometree-cli/src/watch.rs` and `crates/hometree-core/src/secrets.rs`
  — watch-event classification; the glob matchers of `ManagedSet` are built
  by the external `globset` crate and enter as abstract predicates;
* `crates/hometree-core/src/secrets.rs` and `crates/hometree-core/src/error.rs`
  — the error-kind mapping of `AgeBackend::decrypt`; the `age` primitive is
  an external collaborator, so a ciphertext is represented by the outcome it
  produces in that primitive;
* `crates/hometree-core/src/deploy.rs`, `verify.rs`, `plan.rs` — the deploy,
  verify and plan engines over an explicit filesystem model.

Filesystem model: the home tree is a finite map from absolute paths
(component lists) to nodes (regular file with content and exec bit, symbolic
link with its raw target string, directory).  Paths are independent keys:
`create_dir_all` on parents is a no-op of the model and intermediate
directory components are not themselves symlinks.  File contents and symlink
targets are Lean strings compared exactly, matching the byte-for-byte
comparisons of the source (`String::from_utf8_lossy` is applied identically
on both sides of every comparison in the source, so it is modelled as the
identity).  `Path::exists`, which follows symbolic links, is modelled by a
fuel-bounded resolution (fuel 40, the Linux symlink-loop limit), while
`fs::symlink_metadata` is a plain lookup.
-/

namespace Hometree

/-! ## Debounce (crates/hometree-cli/src/debounce.rs)

`Debounce<T>` keeps a `BTreeSet<T>` of pending values and an
`Option<Instant>` last-event stamp.  Instants are modelled as natural
numbers of milliseconds; `Instant::duration_since` saturates at zero,
which is natural subtraction.  The `BTreeSet` is modelled as a `Finset`
whose `sort` gives the ascending iteration order of the source. -/

structure Deb (α : Type) [LinearOrder α] where
  window : Nat
  lastEvent : Option Nat
  pending : Finset α

variable {α : Type} [LinearOrder α]

/-- `push(&mut self, value, now)`: refresh `last_event` and insert. -/
def Deb.push (d : Deb α) (v : α) (now : Nat) : Deb α :=
  { d with lastEvent := some now, pending := insert v d.pending }

/-- `is_due(&self, now)`: `now.duration_since(last) >= self.window`. -/
def Deb.isDue (d : Deb α) (now : Nat) : Bool :=
  match d.lastEvent with
  | some last => decide (d.window ≤ now - last)
  | none => false

/-- `drain(&mut self)`: return pending in ascending order, clear pending
and clear `last_event`. -/
def Deb.drain (d : Deb α) : List α × Deb α :=
  (d.pending.sort (· ≤ ·), { d with pending := ∅, lastEvent := none })

/-- `is_empty(&self)`. -/
def Deb.isEmptyQ (d : Deb α) : Bool :=
  decide (d.pending = ∅)

/-- `clear` as used by the daemon loop: drop pending state.  (The daemon
calls `clear()` on its debounce queues when entering a pause.) -/
def Deb.clear (d : Deb α) : Deb α :=
  { d with pending := ∅, lastEvent := none }

/-- C6: after `push(v, t)` with no later push, `is_due(t')` is false for
every `t'` with `t' - t < W` and true for every `t'` with `t' - t ≥ W`;
`drain()` returns exactly the pending values, ascending and without
duplicates (coalesced by value equality), and afterwards the queue is
empty and `is_due` is false at every instant until the next push. -/
theorem C6_debounce_contract (d : Deb α) (v : α) (t : Nat) :
    (∀ t', t' - t < d.window → (d.push v t).isDue t' = false) ∧
    (∀ t', d.window ≤ t' - t → (d.push v t).isDue t' = true) ∧
    (∀ x, x ∈ ((d.push v t).drain).1 ↔ x ∈ (d.push v t).pending) ∧
    ((d.push v t).drain).1.Sorted (· < ·) ∧
    ((d.push v t).drain).2.pending = ∅ ∧
    (∀ t'', ((d.push v t).drain).2.isDue t'' = false) := by
  refine ⟨?_, ?_, ?_, ?_, rfl, ?_⟩
  · intro t' h
    simp only [Deb.push, Deb.isDue, decide_eq_false_iff_not]
    omega
  · intro t' h
    simp only [Deb.push, Deb.isDue, decide_eq_true_eq]
    omega
  · intro x
    simp [Deb.drain, Finset.mem_sort]
  · simpa [Deb.drain] using Finset.sort_sorted_lt (d.push v t).pending
  · intro t''
    rfl

/-- Concrete instantiation of scenario S5-style data: window 100, push at
instant 0; not due at 50, due at 110; drain empties the queue. -/
theorem C6_debounce_witness :
    ((Deb.push ⟨100, none, ∅⟩ (5 : Nat) 0).isDue 50 = false) ∧
    ((Deb.push ⟨100, none, ∅⟩ (5 : Nat) 0).isDue 110 = true) ∧
    (((Deb.push ⟨100, none, ∅⟩ (5 : Nat) 0).drain).2.isDue 200 = false) := by
  have h := C6_debounce_contract (α := Nat) ⟨100, none, ∅⟩ 5 0
  exact ⟨h.1 50 (by decide), h.2.1 110 (by decide), h.2.2.2.2.2 200⟩

/-! ## Backoff (crates/hometree-cli/src/daemon.rs, `struct Backoff`)

Durations and instants are milliseconds as naturals.  The source states:
`current` starts at 200 ms, `max` is 10 s; `fail(now)` sets
`current := min(current + current, max)` and `until := now + current`;
`ready(now)` is true when no deadline is armed or `now` has reached it;
`reset()` restores 200 ms and clears the deadline. -/

structure Backoff where
  current : Nat
  maxDelay : Nat
  untilT : Option Nat
deriving DecidableEq

/-- `Backoff::new()`. -/
def Backoff.new : Backoff :=
  ⟨200, 10000, none⟩

/-- `ready(&self, now)`: `self.until.is_none_or(|u| now >= u)`. -/
def Backoff.ready (b : Backoff) (now : Nat) : Bool :=
  match b.untilT with
  | none => true
  | some u => decide (u ≤ now)

/-- `fail(&mut self, now)`: double up to the ceiling, then arm the wait. -/
def Backoff.fail (b : Backoff) (now : Nat) : Backoff :=
  let next := min (b.current + b.current) b.maxDelay
  ⟨next, b.maxDelay, some (now + next)⟩

/-- `reset(&mut self)`. -/
def Backoff.reset (b : Backoff) : Backoff :=
  ⟨200, b.maxDelay, none⟩

/-- Fold a sequence of consecutive failures at the given instants. -/
def Backoff.failTimes (b : Backoff) (ts : List Nat) : Backoff :=
  ts.foldl Backoff.fail b

theorem Backoff.min_double (x : Nat) :
    min (min x 10000 + min x 10000) 10000 = min (x + x) 10000 := by
  rcases Nat.le_total x 10000 with h | h
  · rw [min_eq_left h]
  · rw [min_eq_right h, min_eq_right (by omega : (10000 : Nat) ≤ x + x),
      min_eq_right (by omega : (10000 : Nat) ≤ 10000 + 10000)]

theorem Backoff.current_failTimes (ts : List Nat) :
    (Backoff.new.failTimes ts).current = min (200 * 2 ^ ts.length) 10000 ∧
    (Backoff.new.failTimes ts).maxDelay = 10000 := by
  suffices h : ∀ (ts : List Nat) (b : Backoff) (k : Nat),
      b.current = min (200 * 2 ^ k) 10000 → b.maxDelay = 10000 →
      (b.failTimes ts).current = min (200 * 2 ^ (k + ts.length)) 10000 ∧
      (b.failTimes ts).maxDelay = 10000 by
    simpa using h ts Backoff.new 0 (by simp [Backoff.new]) rfl
  intro ts
  induction ts with
  | nil => intro b k h1 h2; simpa [Backoff.failTimes] using ⟨h1, h2⟩
  | cons t ts ih =>
    intro b k h1 h2
    have hstep : (b.fail t).current = min (200 * 2 ^ (k + 1)) 10000 := by
      simp only [Backoff.fail, h1, h2]
      have hpow : 200 * 2 ^ (k + 1) = 200 * 2 ^ k + 200 * 2 ^ k := by ring
      rw [hpow]
      exact Backoff.min_double (200 * 2 ^ k)
    have hmax : (b.fail t).maxDelay = 10000 := by simp [Backoff.fail, h2]
    have := ih (b.fail t) (k + 1) hstep hmax
    simpa [Backoff.failTimes, Nat.add_assoc, Nat.add_comm 1 ts.length] using this

/-- C8 counterexample: the claim states that the first failure waits
200 ms, but `fail` doubles `current` before arming the deadline, so the
first consecutive failure from the initial state arms a wait of 400 ms. -/
theorem C8_backoff_counterexample :
    (Backoff.new.fail 0).untilT = some 400 ∧ (400 : Nat) ≠ 200 := by
  constructor
  · rfl
  · decide

/-- C8 amended: the delay starts at 200 ms; after the n-th consecutive
failure (the last one at instant t) the armed wait equals
min(200 ms * 2^n, 10 s) — so the first failure waits 400 ms, not 200 ms —
and `reset()` restores the 200 ms initial delay and clears the pending
wait, making `ready` immediately true. -/
theorem C8_backoff_amended (ts : List Nat) (t : Nat) :
    Backoff.new.current = 200 ∧
    ((Backoff.new.failTimes ts).fail t).current =
      min (200 * 2 ^ (ts.length + 1)) 10000 ∧
    ((Backoff.new.failTimes ts).fail t).untilT =
      some (t + min (200 * 2 ^ (ts.length + 1)) 10000) ∧
    (((Backoff.new.failTimes ts).fail t).reset).current = 200 ∧
    (((Backoff.new.failTimes ts).fail t).reset).untilT = none ∧
    (∀ now, (((Backoff.new.failTimes ts).fail t).reset).ready now = true) := by
  obtain ⟨hc, hm⟩ := Backoff.current_failTimes ts
  have hstep : ((Backoff.new.failTimes ts).fail t).current =
      min (200 * 2 ^ (ts.length + 1)) 10000 := by
    simp only [Backoff.fail, hc, hm]
    have hpow : 200 * 2 ^ (ts.length + 1) =
        200 * 2 ^ ts.length + 200 * 2 ^ ts.length := by ring
    rw [hpow]
    exact Backoff.min_double (200 * 2 ^ ts.length)
  refine ⟨rfl, hstep, ?_, rfl, rfl, fun now => rfl⟩
  simp only [Backoff.fail, hc, hm]
  have hpow : 200 * 2 ^ (ts.length + 1) =
      200 * 2 ^ ts.length + 200 * 2 ^ ts.length := by ring
  rw [hpow, Backoff.min_double (200 * 2 ^ ts.length)]

/-! ## Inhibit marker (crates/hometree-core/src/inhibit.rs)

The `expires_at` field is a string parsed with the external `time` crate;
the parser enters as an abstract `parse : String → Option Int` returning
the timestamp when the string is valid RFC3339.  `active_inhibit` reads
the marker file, garbage-collects an expired marker and returns the active
one; it is modelled as a function from the marker-file state to the pair
(returned marker, marker-file state afterwards). -/

structure InhibitMarker where
  reason : String
  pid : Nat
  expiresAt : String
  epoch : Nat

/-- `InhibitMarker::is_expired(now)`: an unparsable `expires_at` is
expired at every instant; otherwise expired iff `now >= expires_at`. -/
def InhibitMarker.isExpired (parse : String → Option Int) (m : InhibitMarker)
    (now : Int) : Bool :=
  match parse m.expiresAt with
  | none => true
  | some ts => decide (ts ≤ now)

/-- `active_inhibit`: `None` file stays `None`; an expired marker is
cleared (file deleted) and reported absent; a live marker is returned and
the file kept. -/
def activeInhibit (parse : String → Option Int) (now : Int)
    (file : Option InhibitMarker) : Option InhibitMarker × Option InhibitMarker :=
  match file with
  | none => (none, none)
  | some m => if m.isExpired parse now then (none, none) else (some m, some m)

/-- C10: a marker whose `expires_at` does not parse as RFC3339 is expired
at every instant, and `active_inhibit` treats it as absent: it returns
`None` and deletes the marker file, so a corrupt marker never suppresses
staging. -/
theorem C10_corrupt_marker_inactive (parse : String → Option Int)
    (m : InhibitMarker) (h : parse m.expiresAt = none) :
    (∀ now, m.isExpired parse now = true) ∧
    (∀ now, activeInhibit parse now (some m) = (none, none)) := by
  have hexp : ∀ now, m.isExpired parse now = true := by
    intro now
    simp [InhibitMarker.isExpired, h]
  refine ⟨hexp, fun now => ?_⟩
  simp [activeInhibit, hexp now]

/-- Concrete corrupt marker: with a parser rejecting the garbage string,
the marker is expired at instant 0 and `active_inhibit` clears it. -/
theorem C10_corrupt_marker_witness :
    (InhibitMarker.mk "deploy" 1 "not-a-timestamp" 0).isExpired
      (fun _ => none) 0 = true ∧
    activeInhibit (fun _ => none) 0
      (some (InhibitMarker.mk "deploy" 1 "not-a-timestamp" 0)) = (none, none) := by
  have h := C10_corrupt_marker_inactive (fun _ => none)
    (InhibitMarker.mk "deploy" 1 "not-a-timestamp" 0) rfl
  exact ⟨h.1 0, h.2 0⟩

/-! ## Watch classification
(crates/hometree-cli/src/watch.rs `decide_watch_action`,
crates/hometree-core/src/secrets.rs `SecretsManager`)

Home-relative event paths are strings here, since `is_ciphertext_path`
is a string-suffix test.  The glob matchers of `ManagedSet` and the
allowlist are external (`globset`), so `is_managed`, `is_allowed` and the
allowlist enter as abstract predicates. -/

/-- Suffix test on strings (Rust `str::ends_with`), via the underlying
character lists so that it evaluates by kernel reduction. -/
def strEndsWith (p suffix : String) : Bool :=
  suffix.data.isSuffixOf p.data

structure SecretRuleW where
  path : String
  ciphertext : Option String
  modeOct : Option Nat

structure SecretsManagerW where
  enabled : Bool
  sidecarSuffix : String
  rules : List SecretRuleW

/-- `SecretsManager::is_ciphertext_path`: path string ends with the
sidecar suffix. -/
def SecretsManagerW.isCiphertextPath (s : SecretsManagerW) (p : String) : Bool :=
  strEndsWith p s.sidecarSuffix

/-- `SecretsManager::is_secret_plaintext`: path equals some rule's
plaintext path. -/
def SecretsManagerW.isSecretPlaintext (s : SecretsManagerW) (p : String) : Bool :=
  s.rules.any (fun rule => p == rule.path)

inductive WatchAction where
  | ignore
  | secretPlaintext
  | managed (autoAdd isAllowed matchesAllowlist : Bool)
deriving DecidableEq

/-- `decide_watch_action`: sidecar check first, then secret plaintext,
then managed-set membership, then the auto-add flags. -/
def decideWatchAction (isManaged isAllowed : String → Bool)
    (secrets : SecretsManagerW) (allowlist : String → Bool)
    (autoAddEnabled : Bool) (relPath : String) : WatchAction :=
  if secrets.isCiphertextPath relPath then .ignore
  else if secrets.isSecretPlaintext relPath then .secretPlaintext
  else if !isManaged relPath then .ignore
  else
    let a := isAllowed relPath
    let m := allowlist relPath
    .managed (autoAddEnabled && a && m) a m

/-- C3 counterexample: with sidecar suffix `.age` and a rule whose
plaintext path itself ends in `.age`, the event for the plaintext path is
classified `Ignore` (the ciphertext-suffix test fires first), not
`SecretPlaintext`, although the path equals the rule's plaintext path. -/
theorem C3_watch_counterexample :
    decideWatchAction (fun _ => true) (fun _ => true)
      ⟨true, ".age", [⟨".token.age", none, none⟩]⟩ (fun _ => true) true
      ".token.age" = WatchAction.ignore ∧
    WatchAction.ignore ≠ WatchAction.secretPlaintext := by
  constructor
  · rfl
  · decide

/-- C3 amended: for every secrets configuration and event path r, if r
equals the plaintext path of some secret rule AND r does not end with
the sidecar suffix (the source classifies sidecar-suffixed paths as
`Ignore` before consulting the rules), the classification is
`SecretPlaintext`. -/
theorem C3_watch_classified_secret_plaintext (isManaged isAllowed : String → Bool)
    (secrets : SecretsManagerW) (allowlist : String → Bool)
    (autoAddEnabled : Bool) (r : String)
    (hrule : ∃ rule ∈ secrets.rules, r = rule.path)
    (hsuffix : strEndsWith r secrets.sidecarSuffix = false) :
    decideWatchAction isManaged isAllowed secrets allowlist autoAddEnabled r =
      WatchAction.secretPlaintext := by
  obtain ⟨rule, hmem, hpath⟩ := hrule
  have hplain : secrets.isSecretPlaintext r = true := by
    simp only [SecretsManagerW.isSecretPlaintext, List.any_eq_true]
    exact ⟨rule, hmem, by simp [hpath]⟩
  simp [decideWatchAction, SecretsManagerW.isCiphertextPath, hsuffix, hplain]

/-- Concrete instance of the amended C3: plaintext `.config/app/secret.txt`
with suffix `.age` is classified `SecretPlaintext`. -/
theorem C3_watch_witness :
    decideWatchAction (fun _ => true) (fun _ => true)
      ⟨true, ".age", [⟨".config/app/secret.txt", none, none⟩]⟩ (fun _ => true)
      true ".config/app/secret.txt" = WatchAction.secretPlaintext := by
  exact C3_watch_classified_secret_plaintext (fun _ => true) (fun _ => true)
    ⟨true, ".age", [⟨".config/app/secret.txt", none, none⟩]⟩ (fun _ => true)
    true ".config/app/secret.txt"
    ⟨⟨".config/app/secret.txt", none, none⟩, by simp, rfl⟩ (by decide)

/-! ## Secrets decrypt error kinds
(crates/hometree-core/src/secrets.rs `AgeBackend::decrypt`,
crates/hometree-core/src/error.rs `HometreeError`)

`HometreeError` is mirrored as its kind enumeration — it has NO
crypto-specific variant.  The `age` primitive is an external collaborator;
a ciphertext input is therefore represented by the outcome it produces in
that primitive: malformed header (`Decryptor::new` fails), passphrase
recipients, header/key failure (`decryptor.decrypt` fails — this is where
an integrity failure of a tampered header or a non-matching key surfaces),
payload tampering (`read_to_end` fails with an I/O error), or success. -/

inductive ErrorKind where
  | noBaseDirs
  | ioErr
  | tomlSer
  | tomlDe
  | json
  | glob
  | git
  | invalidPath
  | config
deriving DecidableEq

inductive AgeOutcome where
  | malformed
  | passphrase
  | headerTampered
  | payloadTampered
  | ok (pt : List Nat)
deriving DecidableEq

/-- `AgeBackend::decrypt`, abstracted to the error KIND it reports:
`ensure_identities` first (empty identity list is a `Config` error), then
every failure of the age decryptor itself is wrapped into
`HometreeError::Config("age decrypt failed: ...")`, except the payload
read which surfaces as `HometreeError::Io`. -/
def ageDecrypt (identities : List String) (c : AgeOutcome) :
    Except ErrorKind (List Nat) :=
  if identities.isEmpty then .error .config
  else
    match c with
    | .malformed => .error .config
    | .passphrase => .error .config
    | .headerTampered => .error .config
    | .payloadTampered => .error .ioErr
    | .ok pt => .ok pt

/-- C7 counterexample: an integrity failure of well-keyed ciphertext
(tampered header, valid identity configured) is reported with kind
`config` — the SAME kind used for missing keys — and the error
enumeration of error.rs has no crypto kind at all, so the claimed
distinct crypto-error kind does not exist. -/
theorem C7_crypto_kind_counterexample :
    ageDecrypt ["identity"] AgeOutcome.headerTampered = .error .config ∧
    ageDecrypt [] (AgeOutcome.ok []) = .error .config := by
  constructor <;> rfl

/-- C7 amended: decrypt failures caused by the data are reported with the
configuration-error kind (header integrity failures) or the I/O kind
(payload integrity failures); in particular they are NOT distinct from
the configuration-error kind used for missing keys, because
`HometreeError` has no crypto variant. -/
theorem C7_crypto_kind_amended (identities : List String) (c : AgeOutcome)
    (hne : identities ≠ []) :
    ageDecrypt identities AgeOutcome.headerTampered = .error .config ∧
    ageDecrypt identities AgeOutcome.payloadTampered = .error .ioErr ∧
    ageDecrypt [] c = .error .config := by
  have hfalse : identities.isEmpty = false := by
    cases identities with
    | nil => exact absurd rfl hne
    | cons a l => rfl
  refine ⟨?_, ?_, ?_⟩
  · simp [ageDecrypt, hfalse]
  · simp [ageDecrypt, hfalse]
  · rfl

/-- Concrete instance of the amended C7. -/
theorem C7_crypto_kind_witness :
    ageDecrypt ["k"] AgeOutcome.headerTampered = .error .config ∧
    ageDecrypt ["k"] AgeOutcome.payloadTampered = .error .ioErr ∧
    ageDecrypt [] (AgeOutcome.ok [1]) = .error .config := by
  exact C7_crypto_kind_amended ["k"] (AgeOutcome.ok [1]) (by decide)

/-! ## Watch daemon main loop (crates/hometree-cli/src/daemon.rs,
`run_daemon_foreground` / `flush_changes`)

One iteration of the main loop is a step function on the loop's mutable
state; the environment of the iteration (pending control messages, the
classified watcher events of the `recv_timeout`, the result of
`active_inhibit` at the flush gate, lock availability, staging success,
the clock) is an input.  Event paths are opaque tokens (`Nat`).  The
iteration emits the list of staging operations it performs: `git add`
batches and sidecar encryption writes.  Reload, the shared status record
and logging perform no staging and are not modelled. -/

inductive CtrlMsg where
  | pauseMsg (ttl : Nat)
  | resumeMsg
  | flushMsg
  | reloadMsg
  | shutdownMsg

structure DaemonState where
  managedQ : Deb Nat
  secretsQ : Deb Nat
  autoAddQ : Finset Nat
  backoff : Backoff
  pauseUntil : Option Nat
  forceFlush : Bool

structure DaemonEnv where
  msgs : List CtrlMsg
  managedEvents : List Nat
  secretEvents : List Nat
  autoAddEvents : List Nat
  inhibitActive : Bool
  lockBusy : Bool
  stageOk : Bool
  now : Nat

/-- A staging operation: an `add` to the revision backend or a sidecar
encryption write. -/
inductive StageAct where
  | gitAdd (paths : List Nat)
  | sidecarWrite (path : Nat)

/-- Drain the `try_recv` loop over the control channel.  `Pause` records
the deadline and clears all queues; `Resume` clears the deadline; `Flush`
sets `force_flush`; `Reload` only sets a flag (the reload acts on
configuration, not on staging); `Shutdown` returns from the loop, so the
remaining messages are not processed and the second component is true. -/
def processCtrl (now : Nat) : DaemonState → List CtrlMsg → DaemonState × Bool
  | st, [] => (st, false)
  | st, msg :: rest =>
    match msg with
    | .pauseMsg ttl =>
        processCtrl now
          { st with pauseUntil := some (now + ttl),
                    managedQ := st.managedQ.clear,
                    secretsQ := st.secretsQ.clear,
                    autoAddQ := ∅ } rest
    | .resumeMsg => processCtrl now { st with pauseUntil := none } rest
    | .flushMsg => processCtrl now { st with forceFlush := true } rest
    | .reloadMsg => processCtrl now st rest
    | .shutdownMsg => (st, true)

/-- Pause-deadline expiry, evaluated every iteration. -/
def expirePause (now : Nat) (st : DaemonState) : DaemonState :=
  match st.pauseUntil with
  | some d => if d ≤ now then { st with pauseUntil := none } else st
  | none => st

/-- `handle_event`: push classified paths into the per-kind queues; a
non-empty auto-add batch asserts `force_flush`. -/
def handleEvents (env : DaemonEnv) (st : DaemonState) : DaemonState :=
  { st with
    managedQ := env.managedEvents.foldl (fun q p => q.push p env.now) st.managedQ,
    secretsQ := env.secretEvents.foldl (fun q p => q.push p env.now) st.secretsQ,
    autoAddQ := env.autoAddEvents.foldl (fun s p => insert p s) st.autoAddQ,
    forceFlush := st.forceFlush || !env.autoAddEvents.isEmpty }

/-- Requeue drained batches after a failed flush, refreshing debounce
stamps at the current instant (`flush_changes`' error path). -/
def requeueAll (now : Nat) (st : DaemonState)
    (managed secretsL autoL : List Nat) : DaemonState :=
  { st with
    managedQ := managed.foldl (fun q p => q.push p now) st.managedQ,
    secretsQ := secretsL.foldl (fun q p => q.push p now) st.secretsQ,
    autoAddQ := autoL.foldl (fun s p => insert p s) st.autoAddQ }

/-- `flush_changes`: drain all queues; an all-empty batch is a successful
no-op; a busy lock requeues and fails; otherwise auto-add paths are
staged, each secret plaintext is encrypted and written to its sidecar and
the sidecars staged, then the managed batch is staged.  Failure of the
backend requeues and fails.  Returns the new state, the staging
operations performed, and success. -/
def flushChanges (env : DaemonEnv) (st : DaemonState) :
    DaemonState × List StageAct × Bool :=
  let managed := (st.managedQ.drain).1
  let secretsL := (st.secretsQ.drain).1
  let autoL := st.autoAddQ.sort (· ≤ ·)
  let st1 := { st with managedQ := (st.managedQ.drain).2,
                       secretsQ := (st.secretsQ.drain).2,
                       autoAddQ := ∅ }
  if managed.isEmpty && secretsL.isEmpty && autoL.isEmpty then (st1, [], true)
  else if env.lockBusy then (requeueAll env.now st1 managed secretsL autoL, [], false)
  else
    let acts :=
      (if autoL.isEmpty then [] else [StageAct.gitAdd autoL])
        ++ secretsL.map StageAct.sidecarWrite
        ++ (if secretsL.isEmpty then [] else [StageAct.gitAdd secretsL])
        ++ (if managed.isEmpty then [] else [StageAct.gitAdd managed])
    if env.stageOk then (st1, acts, true)
    else (requeueAll env.now st1 managed secretsL autoL, acts, false)

/-- One iteration of the daemon main loop: control messages, pause
expiry, event intake, the flush gate (`flush_due`, backoff readiness,
pause/inhibit suppression with queue clearing), then the flush with
backoff bookkeeping. -/
def daemonStep (env : DaemonEnv) (st : DaemonState) :
    DaemonState × List StageAct :=
  match processCtrl env.now st env.msgs with
  | (st1, true) => (st1, [])
  | (st1, false) =>
    let st2 := expirePause env.now st1
    let st3 := handleEvents env st2
    let flushDue := st3.forceFlush
      || (st3.managedQ.isDue env.now && !st3.managedQ.isEmptyQ)
      || (st3.secretsQ.isDue env.now && !st3.secretsQ.isEmptyQ)
    if !flushDue then (st3, [])
    else if !st3.backoff.ready env.now then (st3, [])
    else
      let st4 := { st3 with forceFlush := false }
      if st4.pauseUntil.isSome || env.inhibitActive then
        ({ st4 with managedQ := st4.managedQ.clear,
                    secretsQ := st4.secretsQ.clear,
                    autoAddQ := ∅ }, [])
      else
        match flushChanges env st4 with
        | (st5, acts, true) => ({ st5 with backoff := st5.backoff.reset }, acts)
        | (st5, acts, false) => ({ st5 with backoff := st5.backoff.fail env.now }, acts)

theorem processCtrl_pauseUntil_future (now : Nat) :
    ∀ (msgs : List CtrlMsg) (st : DaemonState) (d : Nat),
      (processCtrl now st msgs).1.pauseUntil = some d → now < d →
      ((expirePause now (processCtrl now st msgs).1).pauseUntil = some d) := by
  intro msgs st d h hlt
  simp [expirePause, h, Nat.not_le.mpr hlt]

/-- C5: in every state of the watch daemon's main loop, no staging
operation (no backend `add` and no sidecar encryption write) is performed
while either a non-expired inhibit marker exists (`active_inhibit`
returned `Some` at the flush gate) or an explicit pause deadline lies in
the future. -/
theorem C5_no_staging_while_inhibited (env : DaemonEnv) (st : DaemonState)
    (h : env.inhibitActive = true ∨
      ∃ d, (processCtrl env.now st env.msgs).1.pauseUntil = some d ∧ env.now < d) :
    (daemonStep env st).2 = [] := by
  unfold daemonStep
  rcases hp : processCtrl env.now st env.msgs with ⟨st1, shut⟩
  cases shut with
  | true => rfl
  | false =>
    simp only
    by_cases hdue : (handleEvents env (expirePause env.now st1)).forceFlush
      || ((handleEvents env (expirePause env.now st1)).managedQ.isDue env.now
            && !(handleEvents env (expirePause env.now st1)).managedQ.isEmptyQ)
      || ((handleEvents env (expirePause env.now st1)).secretsQ.isDue env.now
            && !(handleEvents env (expirePause env.now st1)).secretsQ.isEmptyQ)
    · simp only [hdue, Bool.not_true, Bool.false_eq_true, if_false]
      by_cases hready : (handleEvents env (expirePause env.now st1)).backoff.ready env.now
      · have hgate :
            ((handleEvents env (expirePause env.now st1)).pauseUntil.isSome
              || env.inhibitActive) = true := by
          rcases h with hinh | ⟨d, hd, hlt⟩
          · simp [hinh]
          · rw [hp] at hd
            have := processCtrl_pauseUntil_future env.now env.msgs st d (by rw [hp]; exact hd) hlt
            rw [hp] at this
            simp only [handleEvents]
            simp [this]
        simp [hready, hgate]
      · simp [hready]
    · simp [hdue]

/-- Concrete instance: with the inhibit marker active, a state whose
queues are pending and `force_flush` set performs no staging this
iteration. -/
theorem C5_no_staging_witness :
    (daemonStep
      ⟨[], [], [], [], true, false, true, 1000⟩
      ⟨⟨50, some 0, {7}⟩, ⟨50, none, ∅⟩, ∅, Backoff.new, none, true⟩).2 = [] := by
  exact C5_no_staging_while_inhibited _ _ (Or.inl rfl)

/-! ## Filesystem model for the deploy / verify / plan engines

Paths are component lists; `AbsPath` values are absolute (the empty list
is the filesystem root `/`), `RelPath` values are home-relative.  The
home tree is an association list from absolute paths to nodes whose
well-formedness (`Fs.wf`) is key uniqueness.  Symlink targets are raw
strings, parsed into Rust `Path::components()` on demand. -/

abbrev AbsPath := List String

abbrev RelPath := List String

inductive FsNode where
  | file (data : String) (exec : Bool)
  | symlink (target : String)
  | dir
deriving DecidableEq

abbrev Fs := List (AbsPath × FsNode)

/-- Association-list lookup with decidable key equality. -/
def alookup {κ β : Type} [DecidableEq κ] (l : List (κ × β)) (k : κ) : Option β :=
  match l with
  | [] => none
  | (k', v) :: rest => if k' = k then some v else alookup rest k

/-- Replace the binding for `k`, or append it (BTreeMap insert). -/
def ainsert {κ β : Type} [DecidableEq κ] (l : List (κ × β)) (k : κ) (v : β) :
    List (κ × β) :=
  match l with
  | [] => [(k, v)]
  | (k', v') :: rest => if k' = k then (k, v) :: rest else (k', v') :: ainsert rest k v

/-- Remove the binding for `k` (fs::remove_file). -/
def aerase {κ β : Type} [DecidableEq κ] (l : List (κ × β)) (k : κ) :
    List (κ × β) :=
  match l with
  | [] => []
  | (k', v') :: rest => if k' = k then rest else (k', v') :: aerase rest k

def fsLookup (fs : Fs) (k : AbsPath) : Option FsNode := alookup fs k

def fsInsert (fs : Fs) (k : AbsPath) (n : FsNode) : Fs := ainsert fs k n

def fsErase (fs : Fs) (k : AbsPath) : Fs := aerase fs k

/-- Key uniqueness of the filesystem map. -/
def Fs.wf (fs : Fs) : Prop := (fs.map Prod.fst).Nodup

theorem alookup_insert_self {κ β : Type} [DecidableEq κ]
    (l : List (κ × β)) (k : κ) (v : β) : alookup (ainsert l k v) k = some v := by
  induction l with
  | nil => simp [ainsert, alookup]
  | cons hd tl ih =>
    obtain ⟨k1, v1⟩ := hd
    by_cases h : k1 = k
    · subst h
      simp [ainsert, alookup]
    · simp [ainsert, alookup, h, ih]

theorem alookup_insert_ne {κ β : Type} [DecidableEq κ]
    (l : List (κ × β)) (k k' : κ) (v : β) (h : k' ≠ k) :
    alookup (ainsert l k v) k' = alookup l k' := by
  have hks : k ≠ k' := Ne.symm h
  induction l with
  | nil => simp [ainsert, alookup, hks]
  | cons hd tl ih =>
    obtain ⟨k1, v1⟩ := hd
    by_cases h1 : k1 = k
    · subst h1
      simp [ainsert, alookup, hks]
    · by_cases h2 : k1 = k'
      · subst h2
        simp [ainsert, alookup, h1]
      · simp [ainsert, alookup, h1, h2, ih]

theorem alookup_erase_ne {κ β : Type} [DecidableEq κ]
    (l : List (κ × β)) (k k' : κ) (h : k' ≠ k) :
    alookup (aerase l k) k' = alookup l k' := by
  induction l with
  | nil => simp [aerase]
  | cons hd tl ih =>
    obtain ⟨k1, v1⟩ := hd
    by_cases h1 : k1 = k
    · subst h1
      simp [aerase, alookup, Ne.symm h]
    · by_cases h2 : k1 = k'
      · subst h2
        simp [aerase, alookup, h1]
      · simp [aerase, alookup, h1, h2, ih]

theorem alookup_eq_none {κ β : Type} [DecidableEq κ]
    (l : List (κ × β)) (k : κ) (h : k ∉ l.map Prod.fst) : alookup l k = none := by
  induction l with
  | nil => rfl
  | cons hd tl ih =>
    obtain ⟨k1, v1⟩ := hd
    simp only [List.map_cons, List.mem_cons, not_or] at h
    have h1 : k1 ≠ k := Ne.symm h.1
    simp only [alookup, if_neg h1]
    exact ih h.2

theorem aerase_keys_subset {κ β : Type} [DecidableEq κ]
    (l : List (κ × β)) (k : κ) :
    ∀ x ∈ (aerase l k).map Prod.fst, x ∈ l.map Prod.fst := by
  induction l with
  | nil => simp [aerase]
  | cons hd tl ih =>
    obtain ⟨k1, v1⟩ := hd
    by_cases h1 : k1 = k
    · intro x hx
      simp only [aerase, if_pos h1] at hx
      exact List.mem_cons_of_mem _ hx
    · intro x hx
      simp only [aerase, if_neg h1, List.map_cons, List.mem_cons] at hx
      rcases hx with hx | hx
      · simp [hx]
      · exact List.mem_cons_of_mem _ (ih x hx)

theorem aerase_key_not_mem {κ β : Type} [DecidableEq κ]
    (l : List (κ × β)) (k : κ) (hwf : (l.map Prod.fst).Nodup) :
    k ∉ (aerase l k).map Prod.fst := by
  induction l with
  | nil => simp [aerase]
  | cons hd tl ih =>
    obtain ⟨k1, v1⟩ := hd
    simp only [List.map_cons, List.nodup_cons] at hwf
    by_cases h1 : k1 = k
    · subst h1
      simpa [aerase] using hwf.1
    · simp only [aerase, if_neg h1, List.map_cons, List.mem_cons, not_or]
      exact ⟨Ne.symm h1, ih hwf.2⟩

theorem alookup_erase_self {κ β : Type} [DecidableEq κ]
    (l : List (κ × β)) (k : κ) (hwf : (l.map Prod.fst).Nodup) :
    alookup (aerase l k) k = none :=
  alookup_eq_none _ _ (aerase_key_not_mem l k hwf)

theorem ainsert_keys_subset {κ β : Type} [DecidableEq κ]
    (l : List (κ × β)) (k : κ) (v : β) :
    ∀ x ∈ (ainsert l k v).map Prod.fst, x ∈ l.map Prod.fst ∨ x = k := by
  induction l with
  | nil => simp [ainsert]
  | cons hd tl ih =>
    obtain ⟨k1, v1⟩ := hd
    by_cases h1 : k1 = k
    · intro x hx
      simp only [ainsert, if_pos h1, List.map_cons, List.mem_cons] at hx
      rcases hx with hx | hx
      · right; exact hx
      · left; exact List.mem_cons_of_mem _ hx
    · intro x hx
      simp only [ainsert, if_neg h1, List.map_cons, List.mem_cons] at hx
      rcases hx with hx | hx
      · left; simp [hx]
      · rcases ih x hx with h2 | h2
        · left; exact List.mem_cons_of_mem _ h2
        · right; exact h2

theorem ainsert_wf {κ β : Type} [DecidableEq κ]
    (l : List (κ × β)) (k : κ) (v : β) (hwf : (l.map Prod.fst).Nodup) :
    ((ainsert l k v).map Prod.fst).Nodup := by
  induction l with
  | nil => simp [ainsert]
  | cons hd tl ih =>
    obtain ⟨k1, v1⟩ := hd
    simp only [List.map_cons, List.nodup_cons] at hwf
    by_cases h1 : k1 = k
    · subst h1
      have he : ainsert ((k1, v1) :: tl) k1 v = (k1, v) :: tl := by simp [ainsert]
      rw [he]
      simp only [List.map_cons, List.nodup_cons]
      exact ⟨hwf.1, hwf.2⟩
    · simp only [ainsert, if_neg h1, List.map_cons, List.nodup_cons]
      refine ⟨fun hmem => ?_, ih hwf.2⟩
      rcases ainsert_keys_subset tl k v k1 hmem with h2 | h2
      · exact hwf.1 h2
      · exact h1 h2

theorem aerase_wf {κ β : Type} [DecidableEq κ]
    (l : List (κ × β)) (k : κ) (hwf : (l.map Prod.fst).Nodup) :
    ((aerase l k).map Prod.fst).Nodup := by
  induction l with
  | nil => simp [aerase]
  | cons hd tl ih =>
    obtain ⟨k1, v1⟩ := hd
    simp only [List.map_cons, List.nodup_cons] at hwf
    by_cases h1 : k1 = k
    · simpa [aerase, h1] using hwf.2
    · simp only [aerase, if_neg h1, List.map_cons, List.nodup_cons]
      exact ⟨fun hmem => hwf.1 (aerase_keys_subset tl k k1 hmem), ih hwf.2⟩

theorem alookup_mem {κ β : Type} [DecidableEq κ]
    (l : List (κ × β)) (k : κ) (v : β) (h : (k, v) ∈ l)
    (hwf : (l.map Prod.fst).Nodup) : alookup l k = some v := by
  induction l with
  | nil => simp at h
  | cons hd tl ih =>
    obtain ⟨k1, v1⟩ := hd
    simp only [List.map_cons, List.nodup_cons] at hwf
    rcases List.mem_cons.mp h with he | hmem
    · cases he
      simp [alookup]
    · have hne : k1 ≠ k := by
        intro heq
        exact hwf.1 (heq ▸ List.mem_map_of_mem Prod.fst hmem)
      simp only [alookup, if_neg hne]
      exact ih hmem hwf.2

theorem mem_alookup {κ β : Type} [DecidableEq κ]
    (l : List (κ × β)) (k : κ) (v : β) (h : alookup l k = some v) : (k, v) ∈ l := by
  induction l with
  | nil => simp [alookup] at h
  | cons hd tl ih =>
    obtain ⟨k1, v1⟩ := hd
    by_cases h1 : k1 = k
    · subst h1
      have he : alookup ((k1, v1) :: tl) k1 = some v1 := by simp [alookup]
      rw [he] at h
      injection h with h2
      subst h2
      exact List.mem_cons_self _ _
    · simp only [alookup, if_neg h1] at h
      exact List.mem_cons_of_mem _ (ih h)

/-- Prefix test on component lists (Rust `Path::starts_with`, which is
component-wise). -/
def isPre : List String → List String → Bool
  | [], _ => true
  | _ :: _, [] => false
  | a :: xs, b :: ys => a = b && isPre xs ys

/-- Strip a component prefix (`Path::strip_prefix`): `some r` iff
`k = pre ++ r`. -/
def stripPre : List String → List String → Option (List String)
  | [], k => some k
  | _ :: _, [] => none
  | a :: xs, b :: ys => if a = b then stripPre xs ys else none

theorem isPre_append (p r : List String) : isPre p (p ++ r) = true := by
  induction p with
  | nil => rfl
  | cons a xs ih => simp [isPre, ih]

theorem stripPre_eq_some (p : List String) :
    ∀ k r, stripPre p k = some r ↔ k = p ++ r := by
  induction p with
  | nil =>
    intro k r
    simp [stripPre, eq_comm]
  | cons a xs ih =>
    intro k r
    cases k with
    | nil => simp [stripPre]
    | cons b ys =>
      by_cases hab : a = b
      · subst hab
        simp [stripPre, ih]
      · simp only [stripPre, if_neg hab]
        constructor
        · intro h
          simp at h
        · intro h
          simp only [List.cons_append, List.cons.injEq] at h
          exact absurd h.1.symm hab

theorem append_left_cancel_str {p r r' : List String}
    (h : p ++ r = p ++ r') : r = r' := by
  induction p with
  | nil => exact h
  | cons a xs ih =>
    simp only [List.cons_append, List.cons.injEq] at h
    exact ih h.2

/-! ### Rust path components of a symlink target string

`Path::components()` of the raw target: a leading `/` yields `RootDir`;
the string is split on `/`, empty chunks are dropped, `.` is `CurDir`
(a no-op of the resolution) and `..` is `ParentDir`.  String splitting is
implemented on the character list so that it evaluates by kernel
reduction. -/

inductive PComp where
  | rootC
  | curC
  | parentC
  | normalC (s : String)

def splitChunks : List Char → List Char → List String
  | [], acc => [String.mk acc.reverse]
  | c :: rest, acc =>
    if c = '/' then String.mk acc.reverse :: splitChunks rest []
    else splitChunks rest (c :: acc)

def classifyChunk (s : String) : PComp :=
  if s = "." then .curC else if s = ".." then .parentC else .normalC s

/-- Whether the target string is absolute (`Path::is_absolute`). -/
def targetAbsolute (t : String) : Bool :=
  match t.data with
  | [] => false
  | c :: _ => c = '/'

def parseTarget (t : String) : List PComp :=
  (if targetAbsolute t then [PComp.rootC] else []) ++
    ((splitChunks t.data []).filter (fun s => s ≠ "")).map classifyChunk

/-- `normalize_symlink_target` (deploy.rs): start from `/` for absolute
targets, else from the base directory; `RootDir` resets, `CurDir` is a
no-op, `ParentDir` pops one component (staying at the root), a normal
component is pushed. -/
def normalizeTarget (base : AbsPath) (t : String) : AbsPath :=
  let start := if targetAbsolute t then ([] : AbsPath) else base
  (parseTarget t).foldl
    (fun acc c =>
      match c with
      | .rootC => []
      | .curC => acc
      | .parentC => acc.dropLast
      | .normalC s => acc ++ [s])
    start

/-- `validate_symlink_target` (deploy.rs): the symlink path must live
under home, and the symbolically resolved target must stay under home.
The function consults only its three arguments — no filesystem state. -/
def validateSymlinkTarget (home : AbsPath) (linkPath : AbsPath) (target : String) :
    Bool :=
  if isPre home linkPath then
    let base := if linkPath.isEmpty then home else linkPath.dropLast
    isPre home (normalizeTarget base target)
  else false

/-- `Path::exists` — follows symbolic links; fuel bounds the chain length
(40, the Linux loop limit). -/
def existsFollow (fs : Fs) : Nat → AbsPath → Bool
  | 0, _ => false
  | fuel + 1, p =>
    match fsLookup fs p with
    | none => false
    | some (.file _ _) => true
    | some .dir => true
    | some (.symlink t) => existsFollow fs fuel (normalizeTarget p.dropLast t)

/-- `fs::read` through symlinks: resolve to a regular file's bytes. -/
def readFollow (fs : Fs) : Nat → AbsPath → Option String
  | 0, _ => none
  | fuel + 1, p =>
    match fsLookup fs p with
    | some (.file d _) => some d
    | some (.symlink t) => readFollow fs fuel (normalizeTarget p.dropLast t)
    | _ => none

/-- `str::trim_end_matches('\0')` used by the plan engine on symlink
blobs. -/
def trimNulRight (b : String) : String :=
  String.mk ((b.data.reverse.dropWhile (fun c => c = Char.ofNat 0)).reverse)

/-! ### Revision backend and secrets manager inputs

`ls_tree_detailed` lists `(path, mode)` entries; `show_blob` reads blob
bytes and fails when absent (`GitError::CommandFailed`), which is `none`
here.  The secrets manager carries the rules; `dec` is the abstract
decrypt of the (external) age backend, `none` meaning failure. -/

structure GitState where
  entries : List (RelPath × String)
  blobs : List (RelPath × String)

def GitState.showBlob (g : GitState) (p : RelPath) : Option String :=
  alookup g.blobs p

structure SecretRuleF where
  path : RelPath
  ciphertext : Option RelPath
  modeOct : Option Nat

structure SecretsF where
  enabled : Bool
  sidecarSuffix : String
  rules : List SecretRuleF

/-- `add_suffix` (secrets.rs) appends the suffix to the string form of
the path, i.e. to its last component. -/
def addSuffixR : RelPath → String → RelPath
  | [], suffix => [suffix]
  | [x], suffix => [x ++ suffix]
  | x :: xs, suffix => x :: addSuffixR xs suffix

/-- `SecretsManager::ciphertext_path`. -/
def SecretsF.ciphertextPath (s : SecretsF) (rule : SecretRuleF) : RelPath :=
  match rule.ciphertext with
  | some c => c
  | none => addSuffixR rule.path s.sidecarSuffix

/-- `SecretsManager::is_ciphertext_rule_path`. -/
def SecretsF.isCiphertextRulePath (s : SecretsF) (p : RelPath) : Bool :=
  s.rules.any (fun rule => s.ciphertextPath rule = p)

/-- The secrets predicate used while collecting paths: the engines pass
`Some(&secrets)` only when secrets are enabled. -/
def cipherPred (s : SecretsF) (p : RelPath) : Bool :=
  s.enabled && s.isCiphertextRulePath p

/-- `collect_target_paths` (deploy.rs): fold the tree entries into a map
keyed by path, keeping entries that are managed or ciphertext-rule
paths.  `BTreeMap` key uniqueness is reproduced by `ainsert`; its sorted
iteration order is abstracted to insertion order, on which no settled
claim depends. -/
def collectTargetPaths (isManaged : RelPath → Bool) (s : SecretsF)
    (g : GitState) : List (RelPath × String) :=
  g.entries.foldl
    (fun acc e =>
      if isManaged e.1 || cipherPred s e.1 then ainsert acc e.1 e.2 else acc)
    []

/-- One walked filesystem entry of `collect_current_paths`: keep the
home-relative form of a non-directory node reached by the walk of the
configured roots and extra files (`inWalk`, abstracting the WalkDir
reachability) when it is managed or a ciphertext-rule path. -/
def currentKeep (home : AbsPath) (isManaged inWalk : RelPath → Bool)
    (s : SecretsF) (k : AbsPath) (n : FsNode) : Option RelPath :=
  match stripPre home k with
  | none => none
  | some r =>
    if n ≠ FsNode.dir && inWalk r && (isManaged r || cipherPred s r) then some r
    else none

/-- `collect_current_paths` (deploy.rs) over the filesystem map. -/
def collectCurrentPaths (home : AbsPath) (isManaged inWalk : RelPath → Bool)
    (s : SecretsF) (fs : Fs) : List RelPath :=
  fs.filterMap (fun kn => currentKeep home isManaged inWalk s kn.1 kn.2)

/-! ### Deploy engine (deploy.rs)

Errors abort the deploy; the error value carries the filesystem state at
the moment of failure, since the source mutates the real tree in place.
The backup phase only reads the home tree and writes under the state
directory, and the generation append writes the journal; neither changes
the home tree, so both are no-ops of the model. -/

inductive DeployErr where
  | gitErr
  | permissionDenied
  | conflict
  | configErr
deriving DecidableEq

/-- Exec bit of a secret file: `rule.mode.unwrap_or(0o600) & 0o111 != 0`. -/
def modeExec (m : Option Nat) : Bool :=
  decide (Nat.land (m.getD 0o600) 0o111 ≠ 0)

/-- The node `apply_target` materializes for a tree entry. -/
def targetNode (mode : String) (blob : String) : FsNode :=
  if mode = "120000" then .symlink blob
  else .file blob (decide (mode = "100755"))

/-- Apply one target entry (`apply_target` loop body).  For mode
`120000`: read the blob, validate the target symbolically, refuse to
replace a directory, remove any other node, create the symlink.  For
file modes: refuse a directory, unlink a symlink without following it,
then read the blob, write the bytes and set the exec bit from the mode.
The source removes an existing symlink before reading the blob, so a
blob failure in that branch leaves the symlink already removed. -/
def applyEntry (home : AbsPath) (g : GitState) (fs : Fs) (r : RelPath)
    (mode : String) : Except (DeployErr × Fs) Fs :=
  if mode = "120000" then
    match g.showBlob r with
    | none => .error (.gitErr, fs)
    | some t =>
      if validateSymlinkTarget home (home ++ r) t then
        match fsLookup fs (home ++ r) with
        | some .dir => .error (.conflict, fs)
        | _ => .ok (fsInsert fs (home ++ r) (.symlink t))
      else .error (.permissionDenied, fs)
  else
    match fsLookup fs (home ++ r) with
    | some .dir => .error (.conflict, fs)
    | some (.symlink _) =>
      match g.showBlob r with
      | none => .error (.gitErr, fsErase fs (home ++ r))
      | some data =>
        .ok (fsInsert (fsErase fs (home ++ r)) (home ++ r)
          (.file data (mode = "100755")))
    | _ =>
      match g.showBlob r with
      | none => .error (.gitErr, fs)
      | some data => .ok (fsInsert fs (home ++ r) (.file data (mode = "100755")))

/-- `apply_target`: fold the entries, aborting at the first error. -/
def applyTargetList (home : AbsPath) (g : GitState) :
    Fs → List (RelPath × String) → Except (DeployErr × Fs) Fs
  | fs, [] => .ok fs
  | fs, (r, m) :: rest =>
    match applyEntry home g fs r m with
    | .error e => .error e
    | .ok fs1 => applyTargetList home g fs1 rest

/-- Apply one secret rule (`apply_secrets` loop body): read the
ciphertext blob from the revision, decrypt, refuse to overwrite a
directory, unlink a symlink, write the plaintext with the rule's mode. -/
def applySecretRule (home : AbsPath) (s : SecretsF) (dec : String → Option String)
    (g : GitState) (fs : Fs) (rule : SecretRuleF) : Except (DeployErr × Fs) Fs :=
  match g.showBlob (s.ciphertextPath rule) with
  | none => .error (.gitErr, fs)
  | some cbytes =>
    match dec cbytes with
    | none => .error (.configErr, fs)
    | some pbytes =>
      match fsLookup fs (home ++ rule.path) with
      | some .dir => .error (.conflict, fs)
      | some (.symlink _) =>
        .ok (fsInsert (fsErase fs (home ++ rule.path)) (home ++ rule.path)
          (.file pbytes (modeExec rule.modeOct)))
      | _ => .ok (fsInsert fs (home ++ rule.path) (.file pbytes (modeExec rule.modeOct)))

def applySecretsList (home : AbsPath) (s : SecretsF) (dec : String → Option String)
    (g : GitState) : Fs → List SecretRuleF → Except (DeployErr × Fs) Fs
  | fs, [] => .ok fs
  | fs, rule :: rest =>
    match applySecretRule home s dec g fs rule with
    | .error e => .error e
    | .ok fs1 => applySecretsList home s dec g fs1 rest

/-- `apply_secrets`: a no-op when secrets are disabled. -/
def applySecrets (home : AbsPath) (s : SecretsF) (dec : String → Option String)
    (g : GitState) (fs : Fs) : Except (DeployErr × Fs) Fs :=
  if s.enabled then applySecretsList home s dec g fs s.rules else .ok fs

/-- `delete_missing`: best-effort removal of every current path absent
from the target set. -/
def deleteMissing (home : AbsPath) (fs : Fs) (current : List RelPath)
    (targetKeys : List RelPath) : Fs :=
  current.foldl
    (fun acc r => if decide (r ∈ targetKeys) then acc else fsErase acc (home ++ r))
    fs

/-- `deploy_with_options` restricted to the home tree: compute the target
and current sets, apply the target entries, apply the secrets, delete
missing paths.  (Lock, backup and the generation append do not modify the
home tree.) -/
def deployFs (home : AbsPath) (isManaged inWalk : RelPath → Bool) (s : SecretsF)
    (dec : String → Option String) (g : GitState) (fs : Fs) :
    Except (DeployErr × Fs) Fs :=
  let target := collectTargetPaths isManaged s g
  let current := collectCurrentPaths home isManaged inWalk s fs
  match applyTargetList home g fs target with
  | .error e => .error e
  | .ok fs1 =>
    match applySecrets home s dec g fs1 with
    | .error e => .error e
    | .ok fs2 => .ok (deleteMissing home fs2 current (target.map Prod.fst))

/-! ### Verify engine (verify.rs) -/

inductive SecretsVerifyModeF where
  | skip
  | presence
  | decrypt
deriving DecidableEq

structure VerifyReportF where
  missing : List RelPath
  modified : List RelPath
  typeMismatch : List RelPath
  modeMismatch : List RelPath
  unexpected : List RelPath
  secretMissingPlaintext : List RelPath
  secretMissingCiphertext : List RelPath
  secretMismatch : List RelPath
  secretDecryptError : List RelPath
deriving DecidableEq

def emptyReport : VerifyReportF :=
  ⟨[], [], [], [], [], [], [], [], []⟩

/-- `VerifyReport::is_clean`: every category empty. -/
def VerifyReportF.isClean (rep : VerifyReportF) : Bool :=
  rep.missing.isEmpty && rep.modified.isEmpty && rep.typeMismatch.isEmpty &&
    rep.modeMismatch.isEmpty && rep.unexpected.isEmpty &&
    rep.secretMissingPlaintext.isEmpty && rep.secretMissingCiphertext.isEmpty &&
    rep.secretMismatch.isEmpty && rep.secretDecryptError.isEmpty

/-- One target entry of `verify_expected`: `exists()` (following
symlinks) decides `missing`; then `symlink_metadata` checks the node
type; symlink entries compare the link target against the blob string;
file entries compare bytes and, in strict mode, the exec bit. -/
def verifyEntry (home : AbsPath) (g : GitState) (fs : Fs) (strict : Bool)
    (rep : VerifyReportF) (r : RelPath) (mode : String) :
    Except Unit VerifyReportF :=
  let abs := home ++ r
  if !existsFollow fs 40 abs then .ok { rep with missing := rep.missing ++ [r] }
  else
    match fsLookup fs abs with
    | none => .error ()
    | some meta =>
      if mode = "120000" then
        match meta with
        | .symlink actual =>
          match g.showBlob r with
          | none => .error ()
          | some expected =>
            if actual ≠ expected then
              .ok { rep with modified := rep.modified ++ [r] }
            else .ok rep
        | _ => .ok { rep with typeMismatch := rep.typeMismatch ++ [r] }
      else
        match meta with
        | .file data execB =>
          match g.showBlob r with
          | none => .error ()
          | some expected =>
            let rep1 :=
              if data ≠ expected then { rep with modified := rep.modified ++ [r] }
              else rep
            if strict && (execB ≠ decide (mode = "100755")) then
              .ok { rep1 with modeMismatch := rep1.modeMismatch ++ [r] }
            else .ok rep1
        | _ => .ok { rep with typeMismatch := rep.typeMismatch ++ [r] }

def verifyExpectedList (home : AbsPath) (g : GitState) (fs : Fs) (strict : Bool) :
    VerifyReportF → List (RelPath × String) → Except Unit VerifyReportF
  | rep, [] => .ok rep
  | rep, (r, m) :: rest =>
    match verifyEntry home g fs strict rep r m with
    | .error e => .error e
    | .ok rep1 => verifyExpectedList home g fs strict rep1 rest

/-- One rule of `verify_secrets` in `presence` or `decrypt` mode. -/
def verifySecretRule (home : AbsPath) (s : SecretsF) (g : GitState) (fs : Fs)
    (mode : SecretsVerifyModeF) (dec : String → Option String)
    (targetKeys : List RelPath) (rep : VerifyReportF) (rule : SecretRuleF) :
    Except Unit VerifyReportF :=
  let ptx := rule.path
  let ctx := s.ciphertextPath rule
  let plaintextThere := existsFollow fs 40 (home ++ ptx)
  let cipherInRepo := decide (ctx ∈ targetKeys)
  let rep1 :=
    if !plaintextThere then
      { rep with secretMissingPlaintext := rep.secretMissingPlaintext ++ [ptx] }
    else rep
  let rep2 :=
    if !cipherInRepo then
      { rep1 with secretMissingCiphertext := rep1.secretMissingCiphertext ++ [ctx] }
    else rep1
  if mode ≠ .decrypt then .ok rep2
  else if !plaintextThere || !cipherInRepo then .ok rep2
  else
    match readFollow fs 40 (home ++ ptx) with
    | none => .error ()
    | some plaintext =>
      match g.showBlob ctx with
      | none => .error ()
      | some cbytes =>
        match dec cbytes with
        | none =>
          .ok { rep2 with secretDecryptError := rep2.secretDecryptError ++ [ptx] }
        | some decrypted =>
          if decrypted ≠ plaintext then
            .ok { rep2 with secretMismatch := rep2.secretMismatch ++ [ptx] }
          else .ok rep2

def verifySecretsList (home : AbsPath) (s : SecretsF) (g : GitState) (fs : Fs)
    (mode : SecretsVerifyModeF) (dec : String → Option String)
    (targetKeys : List RelPath) :
    VerifyReportF → List SecretRuleF → Except Unit VerifyReportF
  | rep, [] => .ok rep
  | rep, rule :: rest =>
    match verifySecretRule home s g fs mode dec targetKeys rep rule with
    | .error e => .error e
    | .ok rep1 => verifySecretsList home s g fs mode dec targetKeys rep1 rest

/-- `verify_secrets`: nothing in `skip` mode or when secrets are
disabled. -/
def verifySecretsPhase (home : AbsPath) (s : SecretsF) (g : GitState) (fs : Fs)
    (mode : SecretsVerifyModeF) (dec : String → Option String)
    (targetKeys : List RelPath) (rep : VerifyReportF) :
    Except Unit VerifyReportF :=
  if mode = .skip || !s.enabled then .ok rep
  else verifySecretsList home s g fs mode dec targetKeys rep s.rules

/-- `verify` (verify.rs): target entries, then (strict) unexpected
current paths, then the secrets phase. -/
def verifyFs (home : AbsPath) (isManaged inWalk : RelPath → Bool) (s : SecretsF)
    (g : GitState) (fs : Fs) (strict : Bool) (dec : String → Option String)
    (mode : SecretsVerifyModeF) : Except Unit VerifyReportF :=
  let target := collectTargetPaths isManaged s g
  let targetKeys := target.map Prod.fst
  match verifyExpectedList home g fs strict emptyReport target with
  | .error e => .error e
  | .ok rep =>
    let rep1 :=
      if strict then
        { rep with
          unexpected := rep.unexpected ++
            (collectCurrentPaths home isManaged inWalk s fs).filter
              (fun r => !decide (r ∈ targetKeys)) }
      else rep
    verifySecretsPhase home s g fs mode dec targetKeys rep1

/-! ### Plan engine (plan.rs) -/

inductive PlanAct where
  | create
  | update
  | delete
deriving DecidableEq

structure PlanEntryF where
  act : PlanAct
  path : RelPath
deriving DecidableEq

/-- Lexicographic order on character lists (Rust `str` ordering up to
the claims' needs; no settled claim inspects the plan's order). -/
def charListLt : List Char → List Char → Bool
  | [], [] => false
  | [], _ :: _ => true
  | _ :: _, [] => false
  | a :: xs, b :: ys =>
    if a < b then true else if b < a then false else charListLt xs ys

def pathLt : List String → List String → Bool
  | [], [] => false
  | [], _ :: _ => true
  | _ :: _, [] => false
  | a :: xs, b :: ys =>
    if charListLt a.data b.data then true
    else if charListLt b.data a.data then false
    else pathLt xs ys

def planLe (a b : PlanEntryF) : Bool :=
  !pathLt b.path a.path

/-- Insertion sort by path (`entries.sort_by(|a, b| a.path.cmp(&b.path))`). -/
def insertPlan (x : PlanEntryF) : List PlanEntryF → List PlanEntryF
  | [] => [x]
  | y :: ys => if planLe x y then x :: y :: ys else y :: insertPlan x ys

def sortPlan : List PlanEntryF → List PlanEntryF
  | [] => []
  | x :: xs => insertPlan x (sortPlan xs)

/-- The create/update decision for one target path (`plan_deploy` main
loop): `exists()` decides `Create`; a blob-read failure is silently
skipped; otherwise the comparison depends on the node reached by
`symlink_metadata` — a symlink's target is compared against the blob
trimmed of trailing NULs, a file's bytes byte-for-byte, and a directory
reads as the empty default. -/
def planEntryFor (home : AbsPath) (g : GitState) (fs : Fs) (r : RelPath) :
    List PlanEntryF :=
  if !existsFollow fs 40 (home ++ r) then [⟨.create, r⟩]
  else
    match g.showBlob r with
    | none => []
    | some blob =>
      if (match fsLookup fs (home ++ r) with
          | some (.symlink t) => decide (t ≠ trimNulRight blob)
          | some (.file data _) => decide (data ≠ blob)
          | some .dir => decide ("" ≠ blob)
          | none => true) then [⟨.update, r⟩] else []

/-- `plan_deploy` (plan.rs): create/update entries over the target set,
delete entries over current paths absent from the target, sorted by
path.  The only fallible step inside the loops, the blob read, is
swallowed by the source (`Err(_) => continue`), so the plan itself is
total here. -/
def planDeploy (home : AbsPath) (isManaged inWalk : RelPath → Bool) (s : SecretsF)
    (g : GitState) (fs : Fs) : List PlanEntryF :=
  let target := collectTargetPaths isManaged s g
  let targetKeys := target.map Prod.fst
  let current := collectCurrentPaths home isManaged inWalk s fs
  let ups := targetKeys.foldr (fun r acc => planEntryFor home g fs r ++ acc) []
  let dels := (current.filter (fun r => !decide (r ∈ targetKeys))).map
    (fun r => ⟨.delete, r⟩)
  sortPlan (ups ++ dels)

/-! ### Structure of one `apply_target` iteration -/

theorem mem_ainsert {κ β : Type} [DecidableEq κ]
    (l : List (κ × β)) (k : κ) (v : β) :
    ∀ x ∈ ainsert l k v, x ∈ l ∨ x = (k, v) := by
  induction l with
  | nil => simp [ainsert]
  | cons hd tl ih =>
    obtain ⟨k1, v1⟩ := hd
    by_cases h1 : k1 = k
    · subst h1
      intro x hx
      have he : ainsert ((k1, v1) :: tl) k1 v = (k1, v) :: tl := by simp [ainsert]
      rw [he, List.mem_cons] at hx
      rcases hx with hx | hx
      · right; exact hx
      · left; exact List.mem_cons_of_mem _ hx
    · intro x hx
      simp only [ainsert, if_neg h1, List.mem_cons] at hx
      rcases hx with hx | hx
      · left; simp [hx]
      · rcases ih x hx with h2 | h2
        · left; exact List.mem_cons_of_mem _ h2
        · right; exact h2

theorem collectTargetPaths_wf (isManaged : RelPath → Bool) (s : SecretsF)
    (g : GitState) : ((collectTargetPaths isManaged s g).map Prod.fst).Nodup := by
  suffices h : ∀ (entries : List (RelPath × String)) (acc : List (RelPath × String)),
      (acc.map Prod.fst).Nodup →
      ((entries.foldl
        (fun acc e =>
          if isManaged e.1 || cipherPred s e.1 then ainsert acc e.1 e.2 else acc)
        acc).map Prod.fst).Nodup by
    exact h g.entries [] (by simp)
  intro entries
  induction entries with
  | nil => intro acc hacc; simpa using hacc
  | cons e rest ih =>
    intro acc hacc
    simp only [List.foldl_cons]
    by_cases hp : isManaged e.1 || cipherPred s e.1
    · rw [if_pos hp]
      exact ih _ (ainsert_wf acc e.1 e.2 hacc)
    · rw [if_neg hp]
      exact ih _ hacc

theorem collectTargetPaths_pred (isManaged : RelPath → Bool) (s : SecretsF)
    (g : GitState) (r : RelPath) (m : String)
    (h : (r, m) ∈ collectTargetPaths isManaged s g) :
    (isManaged r || cipherPred s r) = true := by
  suffices hh : ∀ (entries : List (RelPath × String)) (acc : List (RelPath × String)),
      (∀ x ∈ acc, (isManaged x.1 || cipherPred s x.1) = true) →
      ∀ x ∈ entries.foldl
        (fun acc e =>
          if isManaged e.1 || cipherPred s e.1 then ainsert acc e.1 e.2 else acc)
        acc, (isManaged x.1 || cipherPred s x.1) = true by
    exact hh g.entries [] (by simp) (r, m) h
  intro entries
  induction entries with
  | nil => intro acc hacc x hx; exact hacc x hx
  | cons e rest ih =>
    intro acc hacc x hx
    simp only [List.foldl_cons] at hx
    by_cases hp : isManaged e.1 || cipherPred s e.1
    · rw [if_pos hp] at hx
      refine ih _ ?_ x hx
      intro y hy
      rcases mem_ainsert acc e.1 e.2 y hy with h1 | h1
      · exact hacc y h1
      · rw [h1]
        exact hp
    · rw [if_neg hp] at hx
      exact ih _ hacc x hx

/-- Every reachable outcome of `applyEntry`: an error that leaves the
map unchanged, an error after the symlink unlink, or a successful write
of `targetNode` at `home ++ r` (possibly after an unlink), in which case
the blob was read. -/
theorem applyEntry_cases (home : AbsPath) (g : GitState) (fs : Fs) (r : RelPath)
    (m : String) :
    (∃ e, applyEntry home g fs r m = .error (e, fs)) ∨
    (∃ e, applyEntry home g fs r m = .error (e, fsErase fs (home ++ r))) ∨
    (∃ b fs0, g.showBlob r = some b ∧
      (fs0 = fs ∨ fs0 = fsErase fs (home ++ r)) ∧
      applyEntry home g fs r m = .ok (fsInsert fs0 (home ++ r) (targetNode m b))) := by
  unfold applyEntry
  split
  · rename_i hm
    split
    · exact Or.inl ⟨.gitErr, rfl⟩
    · rename_i t hb
      split
      · rename_i hv
        split
        · exact Or.inl ⟨.conflict, rfl⟩
        · refine Or.inr (Or.inr ⟨t, fs, hb, Or.inl rfl, ?_⟩)
          simp [targetNode, hm]
      · exact Or.inl ⟨.permissionDenied, rfl⟩
  · rename_i hm
    split
    · exact Or.inl ⟨.conflict, rfl⟩
    · rename_i t2 hl
      split
      · exact Or.inr (Or.inl ⟨.gitErr, rfl⟩)
      · rename_i d hb
        refine Or.inr (Or.inr ⟨d, fsErase fs (home ++ r), hb, Or.inr rfl, ?_⟩)
        simp [targetNode, hm]
    · split
      · exact Or.inl ⟨.gitErr, rfl⟩
      · rename_i d hb
        refine Or.inr (Or.inr ⟨d, fs, hb, Or.inl rfl, ?_⟩)
        simp [targetNode, hm]

theorem applyEntry_error_frame (home : AbsPath) (g : GitState) (fs : Fs)
    (r : RelPath) (m : String) (e : DeployErr) (fsA : Fs)
    (h : applyEntry home g fs r m = .error (e, fsA)) :
    ∀ k, k ≠ home ++ r → fsLookup fsA k = fsLookup fs k := by
  intro k hk
  rcases applyEntry_cases home g fs r m with ⟨e1, h1⟩ | ⟨e1, h1⟩ | ⟨b, fs0, _, _, h1⟩
  · rw [h1] at h
    simp only [Except.error.injEq, Prod.mk.injEq] at h
    rw [← h.2]
  · rw [h1] at h
    simp only [Except.error.injEq, Prod.mk.injEq] at h
    rw [← h.2]
    exact alookup_erase_ne fs (home ++ r) k hk
  · rw [h1] at h
    simp at h

theorem applyEntry_ok_frame (home : AbsPath) (g : GitState) (fs : Fs)
    (r : RelPath) (m : String) (fs1 : Fs)
    (h : applyEntry home g fs r m = .ok fs1) :
    ∀ k, k ≠ home ++ r → fsLookup fs1 k = fsLookup fs k := by
  intro k hk
  rcases applyEntry_cases home g fs r m with ⟨e1, h1⟩ | ⟨e1, h1⟩ | ⟨b, fs0, _, hfs0, h1⟩
  · rw [h1] at h; simp at h
  · rw [h1] at h; simp at h
  · rw [h1] at h
    simp only [Except.ok.injEq] at h
    subst h
    rw [fsLookup, fsInsert, alookup_insert_ne fs0 (home ++ r) k _ hk]
    rcases hfs0 with h2 | h2
    · rw [h2]; rfl
    · rw [h2]
      exact alookup_erase_ne fs (home ++ r) k hk

theorem applyEntry_ok_value (home : AbsPath) (g : GitState) (fs : Fs)
    (r : RelPath) (m : String) (fs1 : Fs)
    (h : applyEntry home g fs r m = .ok fs1) :
    ∃ b, g.showBlob r = some b ∧
      fsLookup fs1 (home ++ r) = some (targetNode m b) := by
  rcases applyEntry_cases home g fs r m with ⟨e1, h1⟩ | ⟨e1, h1⟩ | ⟨b, fs0, hb, _, h1⟩
  · rw [h1] at h; simp at h
  · rw [h1] at h; simp at h
  · rw [h1] at h
    simp only [Except.ok.injEq] at h
    subst h
    exact ⟨b, hb, alookup_insert_self fs0 (home ++ r) (targetNode m b)⟩

/-- A symlink entry whose blob-declared target fails the symbolic escape
check makes `apply_target` abort, and the filesystem object at the
entry's own path is never touched (entries are keyed uniquely, and the
failing entry errors before any modification at its path). -/
theorem applyTargetList_escape (home : AbsPath) (g : GitState) (r : RelPath)
    (t : String) (hblob : g.showBlob r = some t)
    (hval : validateSymlinkTarget home (home ++ r) t = false) :
    ∀ (entries : List (RelPath × String)) (fs : Fs),
      (r, "120000") ∈ entries → (entries.map Prod.fst).Nodup →
      ∃ e fsA, applyTargetList home g fs entries = .error (e, fsA) ∧
        fsLookup fsA (home ++ r) = fsLookup fs (home ++ r) := by
  intro entries
  induction entries with
  | nil => intro fs hmem; simp at hmem
  | cons hd rest ih =>
    obtain ⟨r1, m1⟩ := hd
    intro fs hmem hnodup
    simp only [List.map_cons, List.nodup_cons] at hnodup
    rcases List.mem_cons.mp hmem with he | hmem'
    · simp only [Prod.mk.injEq] at he
      obtain ⟨hr, hm⟩ := he
      subst hr
      subst hm
      refine ⟨.permissionDenied, fs, ?_, rfl⟩
      simp [applyTargetList, applyEntry, hblob, hval]
    · have hr1r : r1 ≠ r := by
        intro hh
        subst hh
        exact hnodup.1 (List.mem_map_of_mem Prod.fst hmem')
    
      have hkey : home ++ r ≠ home ++ r1 := by
        intro hh
        exact hr1r (append_left_cancel_str hh).symm
      cases happ : applyEntry home g fs r1 m1 with
      | error e =>
        obtain ⟨e1, fsA⟩ := e
        refine ⟨e1, fsA, ?_, ?_⟩
        · simp [applyTargetList, happ]
        · exact applyEntry_error_frame home g fs r1 m1 e1 fsA happ _ hkey
      | ok fs1 =>
        obtain ⟨e1, fsA, hlist, hlook⟩ := ih fs1 hmem' hnodup.2
        refine ⟨e1, fsA, ?_, ?_⟩
        · simp [applyTargetList, happ, hlist]
        · rw [hlook]
          exact applyEntry_ok_frame home g fs r1 m1 fs1 happ _ hkey

/-- C2: for every symlink tree entry at home-relative path r whose
blob-declared target, resolved symbolically (absolute targets from the
root, relative targets from the parent directory of home/r, `..` popping
one component, `.` a no-op, a root component resetting), does not
normalize to a path under the home directory, deploy refuses the entry
with an error: the symlink is not created, the filesystem object at
home/r stays exactly as it was, and the whole deploy aborts with an
error.  The validation itself (`validateSymlinkTarget`) is a pure
function of the home directory, link path and target string — it
consults no filesystem state. -/
theorem C2_symlink_escape_refused (home : AbsPath)
    (isManaged inWalk : RelPath → Bool) (s : SecretsF)
    (dec : String → Option String) (g : GitState) (fs : Fs)
    (r : RelPath) (t : String)
    (hmem : (r, "120000") ∈ collectTargetPaths isManaged s g)
    (hblob : g.showBlob r = some t)
    (hne : r ≠ [])
    (hesc : isPre home (normalizeTarget ((home ++ r).dropLast) t) = false) :
    ∃ e fsA, deployFs home isManaged inWalk s dec g fs = .error (e, fsA) ∧
      fsLookup fsA (home ++ r) = fsLookup fs (home ++ r) := by
  have h2 : (home ++ r).isEmpty = false := by
    cases hr : home ++ r with
    | nil => exact absurd (List.append_eq_nil.mp hr).2 hne
    | cons a xs => rfl
  have hval : validateSymlinkTarget home (home ++ r) t = false := by
    simp [validateSymlinkTarget, isPre_append, h2, hesc]
  obtain ⟨e, fsA, hlist, hlook⟩ :=
    applyTargetList_escape home g r t hblob hval
      (collectTargetPaths isManaged s g) fs hmem
      (collectTargetPaths_wf isManaged s g)
  refine ⟨e, fsA, ?_, hlook⟩
  simp [deployFs, hlist]

/-- Concrete instance of C2: repository entry `lnk` of mode `120000`
with blob `../../etc/passwd`; the deploy aborts and `home/lnk` stays
absent. -/
theorem C2_symlink_escape_witness :
    ∃ e fsA,
      deployFs ["h"] (fun _ => true) (fun _ => true) ⟨false, ".age", []⟩
        (fun _ => none)
        ⟨[(["lnk"], "120000")], [(["lnk"], "../../etc/passwd")]⟩ [] =
        .error (e, fsA) ∧
      fsLookup fsA (["h"] ++ ["lnk"]) = fsLookup [] (["h"] ++ ["lnk"]) := by
  exact C2_symlink_escape_refused ["h"] (fun _ => true) (fun _ => true)
    ⟨false, ".age", []⟩ (fun _ => none)
    ⟨[(["lnk"], "120000")], [(["lnk"], "../../etc/passwd")]⟩ [] ["lnk"]
    "../../etc/passwd" (by decide) (by decide) (by decide) (by decide)

/-! ### Plan lemmas -/

theorem mem_insertPlan (x y : PlanEntryF) (l : List PlanEntryF) :
    y ∈ insertPlan x l ↔ y = x ∨ y ∈ l := by
  induction l with
  | nil => simp [insertPlan]
  | cons z zs ih =>
    by_cases h : planLe x z
    · simp [insertPlan, h]
    · simp only [insertPlan, if_neg h, List.mem_cons, ih]
      tauto

theorem mem_sortPlan (y : PlanEntryF) (l : List PlanEntryF) :
    y ∈ sortPlan l ↔ y ∈ l := by
  induction l with
  | nil => simp [sortPlan]
  | cons z zs ih =>
    simp only [sortPlan, mem_insertPlan, List.mem_cons, ih]

theorem insertPlan_ne_nil (x : PlanEntryF) (l : List PlanEntryF) :
    insertPlan x l ≠ [] := by
  cases l with
  | nil => simp [insertPlan]
  | cons z zs =>
    by_cases h : planLe x z
    · simp [insertPlan, h]
    · simp [insertPlan, h]

theorem sortPlan_eq_nil (l : List PlanEntryF) : sortPlan l = [] ↔ l = [] := by
  cases l with
  | nil => simp [sortPlan]
  | cons z zs =>
    simp only [sortPlan]
    constructor
    · intro h
      exact absurd h (insertPlan_ne_nil z (sortPlan zs))
    · intro h
      exact absurd h (by simp)

theorem mem_foldr_append {α β : Type} (f : α → List β) (l : List α) (y : β) :
    y ∈ l.foldr (fun a acc => f a ++ acc) [] ↔ ∃ a ∈ l, y ∈ f a := by
  induction l with
  | nil => simp
  | cons a rest ih =>
    simp [List.foldr_cons, List.mem_append, ih]

theorem foldr_append_eq_nil {α β : Type} (f : α → List β) (l : List α) :
    l.foldr (fun a acc => f a ++ acc) [] = [] ↔ ∀ a ∈ l, f a = [] := by
  induction l with
  | nil => simp
  | cons a rest ih =>
    simp [List.foldr_cons, List.append_eq_nil, ih]

theorem planEntryFor_path (home : AbsPath) (g : GitState) (fs : Fs) (r : RelPath) :
    ∀ e ∈ planEntryFor home g fs r, e.path = r := by
  intro e he
  unfold planEntryFor at he
  split at he
  · simp only [List.mem_singleton] at he
    rw [he]
  · split at he
    · exact absurd he (List.not_mem_nil e)
    · split at he
      all_goals
        first
        | exact absurd he (List.not_mem_nil e)
        | (simp only [List.mem_singleton] at he; rw [he])

theorem planEntryFor_skipped (home : AbsPath) (g : GitState) (fs : Fs)
    (r : RelPath) (hex : existsFollow fs 40 (home ++ r) = true)
    (hfail : g.showBlob r = none) : planEntryFor home g fs r = [] := by
  simp [planEntryFor, hex, hfail]

/-- C9: when the blob read for a target path that exists in the home
tree fails, `plan_deploy` still returns (the blob error is swallowed by
`Err(_) => continue`) and the plan carries no entry for that path: the
would-be `Update` is silently omitted. -/
theorem C9_blob_failure_omits_entry (home : AbsPath)
    (isManaged inWalk : RelPath → Bool) (s : SecretsF) (g : GitState) (fs : Fs)
    (r : RelPath) (m : String)
    (hmem : (r, m) ∈ collectTargetPaths isManaged s g)
    (hex : existsFollow fs 40 (home ++ r) = true)
    (hfail : g.showBlob r = none) :
    (planDeploy home isManaged inWalk s g fs).filter
      (fun e => decide (e.path = r)) = [] := by
  rw [List.filter_eq_nil_iff]
  intro e he
  simp only [decide_eq_true_eq]
  intro hpath
  simp only [planDeploy, mem_sortPlan, List.mem_append] at he
  rcases he with he | he
  · rw [mem_foldr_append] at he
    obtain ⟨r', hr', he'⟩ := he
    have hp := planEntryFor_path home g fs r' e he'
    rw [hpath] at hp
    subst hp
    rw [planEntryFor_skipped home g fs r hex hfail] at he'
    simp at he'
  · simp only [List.mem_map] at he
    obtain ⟨r'', hr'', he''⟩ := he
    simp only [List.mem_filter, Bool.not_eq_true', decide_eq_false_iff_not] at hr''
    have : e.path = r'' := by rw [← he'']
    rw [hpath] at this
    subst this
    exact hr''.2 ⟨(r, m), hmem, rfl⟩

/-- Concrete instance of C9: the target file `f` exists in home but its
blob is unreadable; the plan is computed and carries no entry for `f`. -/
theorem C9_blob_failure_witness :
    (planDeploy ["h"] (fun _ => true) (fun _ => true) ⟨false, ".age", []⟩
      ⟨[(["f"], "100644")], []⟩
      [((["h", "f"] : AbsPath), FsNode.file "x" false)]).filter
      (fun e => decide (e.path = ["f"])) = [] := by
  exact C9_blob_failure_omits_entry ["h"] (fun _ => true) (fun _ => true)
    ⟨false, ".age", []⟩ ⟨[(["f"], "100644")], []⟩
    [((["h", "f"] : AbsPath), FsNode.file "x" false)] ["f"] "100644"
    (by decide) (by decide) rfl

/-- C4 counterexample: the plan engine compares content ignoring the
entry's mode and node type, while verify checks the type.  A `120000`
entry whose blob bytes coincide with a regular file's bytes at the same
path yields an empty plan, yet non-strict verify reports a
`type_mismatch` — the report is not clean. -/
theorem C4_plan_empty_counterexample :
    planDeploy ["h"] (fun _ => true) (fun _ => true) ⟨false, ".age", []⟩
      ⟨[([".c"], "120000")], [([".c"], "x")]⟩
      [((["h", ".c"] : AbsPath), FsNode.file "x" false)] = [] ∧
    ∃ rep,
      verifyFs ["h"] (fun _ => true) (fun _ => true) ⟨false, ".age", []⟩
        ⟨[([".c"], "120000")], [([".c"], "x")]⟩
        [((["h", ".c"] : AbsPath), FsNode.file "x" false)] false (fun _ => none)
        .skip = .ok rep ∧ rep.isClean = false := by
  exact ⟨rfl, _, rfl, rfl⟩

theorem verifyEntry_ok_symlink (home : AbsPath) (g : GitState) (fs : Fs)
    (strict : Bool) (rep : VerifyReportF) (r : RelPath) (b : String)
    (hex : existsFollow fs 40 (home ++ r) = true)
    (hlook : fsLookup fs (home ++ r) = some (.symlink b))
    (hblob : g.showBlob r = some b) :
    verifyEntry home g fs strict rep r "120000" = .ok rep := by
  simp [verifyEntry, hex, hlook, hblob]

theorem verifyEntry_ok_file (home : AbsPath) (g : GitState) (fs : Fs)
    (strict : Bool) (rep : VerifyReportF) (r : RelPath) (m b : String) (ex : Bool)
    (hm : m ≠ "120000")
    (hex : existsFollow fs 40 (home ++ r) = true)
    (hlook : fsLookup fs (home ++ r) = some (.file b ex))
    (hblob : g.showBlob r = some b)
    (hexec : strict = false ∨ ex = decide (m = "100755")) :
    verifyEntry home g fs strict rep r m = .ok rep := by
  rcases hexec with h | h
  · subst h
    simp [verifyEntry, hex, hlook, hblob, hm]
  · subst h
    simp [verifyEntry, hex, hlook, hblob, hm]

theorem verifyExpectedList_id (home : AbsPath) (g : GitState) (fs : Fs)
    (strict : Bool) (entries : List (RelPath × String)) (rep : VerifyReportF)
    (h : ∀ r m, (r, m) ∈ entries →
      ∀ rep', verifyEntry home g fs strict rep' r m = .ok rep') :
    verifyExpectedList home g fs strict rep entries = .ok rep := by
  induction entries generalizing rep with
  | nil => rfl
  | cons hd rest ih =>
    obtain ⟨r, m⟩ := hd
    have hh := h r m (List.mem_cons_self _ _) rep
    simp only [verifyExpectedList, hh]
    exact ih rep (fun r' m' hm => h r' m' (List.mem_cons_of_mem _ hm))

theorem planDeploy_empty_entryFor (home : AbsPath) (isM inWalk : RelPath → Bool)
    (s : SecretsF) (g : GitState) (fs : Fs)
    (hplan : planDeploy home isM inWalk s g fs = []) :
    ∀ r ∈ (collectTargetPaths isM s g).map Prod.fst,
      planEntryFor home g fs r = [] := by
  intro r hr
  simp only [planDeploy] at hplan
  rw [sortPlan_eq_nil, List.append_eq_nil] at hplan
  exact (foldr_append_eq_nil _ _).mp hplan.1 r hr

theorem planEntryFor_empty_exists (home : AbsPath) (g : GitState) (fs : Fs)
    (r : RelPath) (h : planEntryFor home g fs r = []) :
    existsFollow fs 40 (home ++ r) = true := by
  unfold planEntryFor at h
  split at h
  · exact absurd h (by simp)
  · rename_i hcond
    simpa using hcond

theorem planEntryFor_empty_match (home : AbsPath) (g : GitState) (fs : Fs)
    (r : RelPath) (b : String) (hblob : g.showBlob r = some b)
    (h : planEntryFor home g fs r = []) :
    (match fsLookup fs (home ++ r) with
      | some (.symlink t) => decide (t ≠ trimNulRight b)
      | some (.file data _) => decide (data ≠ b)
      | some .dir => decide ("" ≠ b)
      | none => true) = false := by
  unfold planEntryFor at h
  split at h
  · exact absurd h (by simp)
  · split at h
    · rename_i heq
      rw [hblob] at heq
      cases heq
    · rename_i b2 heq
      rw [hblob] at heq
      injection heq with hb2
      subst hb2
      split at h
      · exact absurd h (by simp)
      · rename_i hc
        simpa using hc

/-- C4 amended: an empty plan implies a clean non-strict verify report
PROVIDED the verify options use `secrets_mode = skip`, every target blob
is readable (the plan swallows blob-read failures that make verify
fail), every target entry's node type matches its mode (the plan
compares content ignoring the type, verify reports `type_mismatch`), and
no symlink blob carries trailing NUL bytes (the plan trims them before
comparing, verify does not). -/
theorem C4_plan_empty_amended (home : AbsPath) (isM inWalk : RelPath → Bool)
    (s : SecretsF) (g : GitState) (fs : Fs) (dec : String → Option String)
    (hplan : planDeploy home isM inWalk s g fs = [])
    (htype : ∀ r m, (r, m) ∈ collectTargetPaths isM s g →
      (m = "120000" → ∃ t, fsLookup fs (home ++ r) = some (.symlink t)) ∧
      (m ≠ "120000" → ∃ d ex, fsLookup fs (home ++ r) = some (.file d ex)))
    (hblob : ∀ r m, (r, m) ∈ collectTargetPaths isM s g →
      ∃ b, g.showBlob r = some b ∧ trimNulRight b = b) :
    verifyFs home isM inWalk s g fs false dec .skip = .ok emptyReport ∧
    emptyReport.isClean = true := by
  have hflat := planDeploy_empty_entryFor home isM inWalk s g fs hplan
  have hexp : verifyExpectedList home g fs false emptyReport
      (collectTargetPaths isM s g) = .ok emptyReport := by
    apply verifyExpectedList_id
    intro r m hmem rep
    have hkey : r ∈ (collectTargetPaths isM s g).map Prod.fst :=
      List.mem_map_of_mem Prod.fst hmem
    have hef : planEntryFor home g fs r = [] := hflat r hkey
    have hex := planEntryFor_empty_exists home g fs r hef
    obtain ⟨b, hb, hnul⟩ := hblob r m hmem
    have hmatch := planEntryFor_empty_match home g fs r b hb hef
    by_cases hm : m = "120000"
    · subst hm
      obtain ⟨t, hlook⟩ := (htype r _ hmem).1 rfl
      rw [hlook] at hmatch
      simp only [ne_eq, decide_eq_false_iff_not, not_not] at hmatch
      rw [hnul] at hmatch
      subst hmatch
      exact verifyEntry_ok_symlink home g fs false rep r t hex hlook hb
    · obtain ⟨d, ex, hlook⟩ := (htype r m hmem).2 hm
      rw [hlook] at hmatch
      simp only [ne_eq, decide_eq_false_iff_not, not_not] at hmatch
      subst hmatch
      exact verifyEntry_ok_file home g fs false rep r m d ex hm hex hlook hb
        (Or.inl rfl)
  refine ⟨?_, rfl⟩
  simp only [verifyFs, hexp]
  simp [verifySecretsPhase]

/-- Concrete instance of the amended C4: a matching regular file gives
an empty plan and a clean non-strict verify. -/
theorem C4_plan_empty_witness :
    verifyFs ["h"] (fun _ => true) (fun _ => true) ⟨false, ".age", []⟩
      ⟨[(["f"], "100644")], [(["f"], "x")]⟩
      [((["h", "f"] : AbsPath), FsNode.file "x" false)] false (fun _ => none)
      .skip = .ok emptyReport ∧
    emptyReport.isClean = true := by
  refine C4_plan_empty_amended ["h"] (fun _ => true) (fun _ => true)
    ⟨false, ".age", []⟩ ⟨[(["f"], "100644")], [(["f"], "x")]⟩
    [((["h", "f"] : AbsPath), FsNode.file "x" false)] (fun _ => none) rfl ?_ ?_
  · intro r m hmem
    constructor
    · intro hm
      rw [hm] at hmem
      simp [collectTargetPaths, cipherPred, SecretsF.isCiphertextRulePath,
        ainsert] at hmem
    · intro _
      have : r = ["f"] := by
        simp [collectTargetPaths, cipherPred, SecretsF.isCiphertextRulePath,
          ainsert] at hmem
        exact hmem.1
      subst this
      exact ⟨"x", false, rfl⟩
  · intro r m hmem
    have : r = ["f"] := by
      simp [collectTargetPaths, cipherPred, SecretsF.isCiphertextRulePath,
        ainsert] at hmem
      exact hmem.1
    subst this
    exact ⟨"x", rfl, rfl⟩

/-! ### Success characterization of the deploy phases -/

theorem applyEntry_ok_wf (home : AbsPath) (g : GitState) (fs : Fs) (r : RelPath)
    (m : String) (fs1 : Fs) (hwf : Fs.wf fs)
    (h : applyEntry home g fs r m = .ok fs1) : Fs.wf fs1 := by
  rcases applyEntry_cases home g fs r m with ⟨e1, h1⟩ | ⟨e1, h1⟩ | ⟨b, fs0, _, hfs0, h1⟩
  · rw [h1] at h; simp at h
  · rw [h1] at h; simp at h
  · rw [h1] at h
    simp only [Except.ok.injEq] at h
    subst h
    rcases hfs0 with h2 | h2 <;> rw [h2]
    · exact ainsert_wf fs _ _ hwf
    · exact ainsert_wf _ _ _ (aerase_wf fs _ hwf)

theorem applyTargetList_ok (home : AbsPath) (g : GitState) :
    ∀ (entries : List (RelPath × String)) (fs fs' : Fs),
      applyTargetList home g fs entries = .ok fs' →
      (entries.map Prod.fst).Nodup → Fs.wf fs →
      Fs.wf fs' ∧
      (∀ r m, (r, m) ∈ entries → ∃ b, g.showBlob r = some b ∧
        fsLookup fs' (home ++ r) = some (targetNode m b)) ∧
      (∀ k, (∀ r, r ∈ entries.map Prod.fst → k ≠ home ++ r) →
        fsLookup fs' k = fsLookup fs k) := by
  intro entries
  induction entries with
  | nil =>
    intro fs fs' h _ hwf
    simp only [applyTargetList, Except.ok.injEq] at h
    subst h
    exact ⟨hwf, by simp, fun k _ => rfl⟩
  | cons hd rest ih =>
    obtain ⟨r1, m1⟩ := hd
    intro fs fs' h hnodup hwf
    simp only [List.map_cons, List.nodup_cons] at hnodup
    cases happ : applyEntry home g fs r1 m1 with
    | error e =>
      rw [applyTargetList, happ] at h
      simp at h
    | ok fs1 =>
      rw [applyTargetList, happ] at h
      obtain ⟨hwf', hval, hframe⟩ :=
        ih fs1 fs' h hnodup.2 (applyEntry_ok_wf home g fs r1 m1 fs1 hwf happ)
      refine ⟨hwf', ?_, ?_⟩
      · intro r m hmem
        rcases List.mem_cons.mp hmem with he | hmem'
        · simp only [Prod.mk.injEq] at he
          obtain ⟨hr, hm⟩ := he
          rw [hr, hm]
          obtain ⟨b, hb, hnode⟩ := applyEntry_ok_value home g fs r1 m1 fs1 happ
          refine ⟨b, hb, ?_⟩
          rw [hframe (home ++ r1) ?_, hnode]
          intro r' hr' heq
          exact hnodup.1 (append_left_cancel_str heq ▸ hr')
        · exact hval r m hmem'
      · intro k hk
        rw [hframe k (fun r' hr' => hk r' (List.mem_cons_of_mem _ hr'))]
        exact applyEntry_ok_frame home g fs r1 m1 fs1 happ k
          (hk r1 (List.mem_cons_self _ _))

theorem applySecretRule_cases (home : AbsPath) (s : SecretsF)
    (dec : String → Option String) (g : GitState) (fs : Fs) (rule : SecretRuleF) :
    (∃ e, applySecretRule home s dec g fs rule = .error (e, fs)) ∨
    (∃ pb fs0, (fs0 = fs ∨ fs0 = fsErase fs (home ++ rule.path)) ∧
      applySecretRule home s dec g fs rule =
        .ok (fsInsert fs0 (home ++ rule.path) (.file pb (modeExec rule.modeOct)))) := by
  unfold applySecretRule
  split
  · exact Or.inl ⟨.gitErr, rfl⟩
  · split
    · exact Or.inl ⟨.configErr, rfl⟩
    · rename_i pb hdec
      split
      · exact Or.inl ⟨.conflict, rfl⟩
      · exact Or.inr ⟨pb, fsErase fs (home ++ rule.path), Or.inr rfl, rfl⟩
      · exact Or.inr ⟨pb, fs, Or.inl rfl, rfl⟩

theorem applySecretRule_ok_wf (home : AbsPath) (s : SecretsF)
    (dec : String → Option String) (g : GitState) (fs : Fs) (rule : SecretRuleF)
    (fs1 : Fs) (hwf : Fs.wf fs)
    (h : applySecretRule home s dec g fs rule = .ok fs1) : Fs.wf fs1 := by
  rcases applySecretRule_cases home s dec g fs rule with ⟨e1, h1⟩ | ⟨pb, fs0, hfs0, h1⟩
  · rw [h1] at h; simp at h
  · rw [h1] at h
    simp only [Except.ok.injEq] at h
    subst h
    rcases hfs0 with h2 | h2 <;> rw [h2]
    · exact ainsert_wf fs _ _ hwf
    · exact ainsert_wf _ _ _ (aerase_wf fs _ hwf)

theorem applySecretRule_ok_frame (home : AbsPath) (s : SecretsF)
    (dec : String → Option String) (g : GitState) (fs : Fs) (rule : SecretRuleF)
    (fs1 : Fs) (h : applySecretRule home s dec g fs rule = .ok fs1) :
    ∀ k, k ≠ home ++ rule.path → fsLookup fs1 k = fsLookup fs k := by
  intro k hk
  rcases applySecretRule_cases home s dec g fs rule with ⟨e1, h1⟩ | ⟨pb, fs0, hfs0, h1⟩
  · rw [h1] at h; simp at h
  · rw [h1] at h
    simp only [Except.ok.injEq] at h
    subst h
    rw [fsLookup, fsInsert, alookup_insert_ne fs0 (home ++ rule.path) k _ hk]
    rcases hfs0 with h2 | h2
    · rw [h2]; rfl
    · rw [h2]
      exact alookup_erase_ne fs (home ++ rule.path) k hk

theorem applySecretRule_ok_value (home : AbsPath) (s : SecretsF)
    (dec : String → Option String) (g : GitState) (fs : Fs) (rule : SecretRuleF)
    (fs1 : Fs) (h : applySecretRule home s dec g fs rule = .ok fs1) :
    ∃ d ex, fsLookup fs1 (home ++ rule.path) = some (.file d ex) := by
  rcases applySecretRule_cases home s dec g fs rule with ⟨e1, h1⟩ | ⟨pb, fs0, hfs0, h1⟩
  · rw [h1] at h; simp at h
  · rw [h1] at h
    simp only [Except.ok.injEq] at h
    subst h
    exact ⟨pb, modeExec rule.modeOct,
      alookup_insert_self fs0 (home ++ rule.path) _⟩

theorem applySecretsList_ok (home : AbsPath) (s : SecretsF)
    (dec : String → Option String) (g : GitState) :
    ∀ (rules : List SecretRuleF) (fs fs' : Fs),
      applySecretsList home s dec g fs rules = .ok fs' → Fs.wf fs →
      Fs.wf fs' ∧
      (∀ rule ∈ rules, ∃ d ex,
        fsLookup fs' (home ++ rule.path) = some (.file d ex)) ∧
      (∀ k, (∀ rule ∈ rules, k ≠ home ++ rule.path) →
        fsLookup fs' k = fsLookup fs k) := by
  intro rules
  induction rules with
  | nil =>
    intro fs fs' h hwf
    simp only [applySecretsList, Except.ok.injEq] at h
    subst h
    exact ⟨hwf, by simp, fun k _ => rfl⟩
  | cons rule rest ih =>
    intro fs fs' h hwf
    cases happ : applySecretRule home s dec g fs rule with
    | error e =>
      rw [applySecretsList, happ] at h
      simp at h
    | ok fs1 =>
      rw [applySecretsList, happ] at h
      obtain ⟨hwf', hval, hframe⟩ :=
        ih fs1 fs' h (applySecretRule_ok_wf home s dec g fs rule fs1 hwf happ)
      refine ⟨hwf', ?_, ?_⟩
      · intro rule' hmem
        rcases List.mem_cons.mp hmem with he | hmem'
        · rw [he]
          by_cases hre : ∀ rule2 ∈ rest, (home ++ rule.path) ≠ home ++ rule2.path
          · obtain ⟨d, ex, hv⟩ :=
              applySecretRule_ok_value home s dec g fs rule fs1 happ
            exact ⟨d, ex, by rw [hframe _ hre]; exact hv⟩
          · push_neg at hre
            obtain ⟨rule2, hmem2, heq⟩ := hre
            obtain ⟨d, ex, hv⟩ := hval rule2 hmem2
            exact ⟨d, ex, by rw [heq]; exact hv⟩
        · exact hval rule' hmem'
      · intro k hk
        rw [hframe k (fun rule2 h2 => hk rule2 (List.mem_cons_of_mem _ h2))]
        exact applySecretRule_ok_frame home s dec g fs rule fs1 happ k
          (hk rule (List.mem_cons_self _ _))

theorem alookup_erase_none {κ β : Type} [DecidableEq κ]
    (l : List (κ × β)) (k k' : κ) (h : alookup l k = none) :
    alookup (aerase l k') k = none := by
  induction l with
  | nil => exact h
  | cons hd tl ih =>
    obtain ⟨k1, v1⟩ := hd
    by_cases h1 : k1 = k
    · subst h1
      simp [alookup] at h
    · simp only [alookup, if_neg h1] at h
      by_cases h2 : k1 = k'
      · simpa [aerase, h2] using h
      · simp only [aerase, if_neg h2, alookup, if_neg h1]
        exact ih h

theorem deleteMissing_cons (home : AbsPath) (fs : Fs) (r1 : RelPath)
    (rest : List RelPath) (tk : List RelPath) :
    deleteMissing home fs (r1 :: rest) tk =
      if r1 ∈ tk then deleteMissing home fs rest tk
      else deleteMissing home (fsErase fs (home ++ r1)) rest tk := by
  by_cases h : r1 ∈ tk
  · rw [if_pos h]
    simp only [deleteMissing, List.foldl_cons]
    rw [if_pos (by simpa using h)]
  · rw [if_neg h]
    simp only [deleteMissing, List.foldl_cons]
    rw [if_neg (by simpa using h)]

theorem deleteMissing_wf (home : AbsPath) :
    ∀ (current : List RelPath) (fs : Fs) (targetKeys : List RelPath),
      Fs.wf fs → Fs.wf (deleteMissing home fs current targetKeys) := by
  intro current
  induction current with
  | nil => intro fs tk hwf; exact hwf
  | cons r1 rest ih =>
    intro fs tk hwf
    rw [deleteMissing_cons]
    by_cases h1 : r1 ∈ tk
    · rw [if_pos h1]
      exact ih fs tk hwf
    · rw [if_neg h1]
      exact ih _ tk (aerase_wf fs _ hwf)

theorem deleteMissing_preserve_none (home : AbsPath) :
    ∀ (current : List RelPath) (fs : Fs) (targetKeys : List RelPath) (k : AbsPath),
      fsLookup fs k = none →
      fsLookup (deleteMissing home fs current targetKeys) k = none := by
  intro current
  induction current with
  | nil => intro fs tk k h; exact h
  | cons r1 rest ih =>
    intro fs tk k h
    rw [deleteMissing_cons]
    by_cases h1 : r1 ∈ tk
    · rw [if_pos h1]
      exact ih fs tk k h
    · rw [if_neg h1]
      exact ih _ tk k (alookup_erase_none fs k _ h)

theorem deleteMissing_none (home : AbsPath) :
    ∀ (current : List RelPath) (fs : Fs) (targetKeys : List RelPath) (r : RelPath),
      Fs.wf fs → r ∈ current → r ∉ targetKeys →
      fsLookup (deleteMissing home fs current targetKeys) (home ++ r) = none := by
  intro current
  induction current with
  | nil => intro fs tk r _ hmem; simp at hmem
  | cons r1 rest ih =>
    intro fs tk r hwf hmem hnt
    rw [deleteMissing_cons]
    by_cases h1 : r1 ∈ tk
    · rw [if_pos h1]
      rcases List.mem_cons.mp hmem with he | hmem2
      · rw [he] at hnt
        exact absurd h1 hnt
      · exact ih fs tk r hwf hmem2 hnt
    · rw [if_neg h1]
      rcases List.mem_cons.mp hmem with he | hmem2
      · rw [he]
        exact deleteMissing_preserve_none home rest _ tk (home ++ r1)
          (alookup_erase_self fs (home ++ r1) hwf)
      · exact ih _ tk r (aerase_wf fs _ hwf) hmem2 hnt

theorem deleteMissing_frame (home : AbsPath) :
    ∀ (current : List RelPath) (fs : Fs) (targetKeys : List RelPath) (k : AbsPath),
      (∀ r ∈ current, r ∉ targetKeys → k ≠ home ++ r) →
      fsLookup (deleteMissing home fs current targetKeys) k = fsLookup fs k := by
  intro current
  induction current with
  | nil => intro fs tk k _; rfl
  | cons r1 rest ih =>
    intro fs tk k hk
    rw [deleteMissing_cons]
    by_cases h1 : r1 ∈ tk
    · rw [if_pos h1]
      exact ih fs tk k (fun r hr hnt => hk r (List.mem_cons_of_mem _ hr) hnt)
    · rw [if_neg h1]
      rw [ih _ tk k (fun r hr hnt => hk r (List.mem_cons_of_mem _ hr) hnt)]
      exact alookup_erase_ne fs (home ++ r1) k
        (hk r1 (List.mem_cons_self _ _) h1)

theorem mem_collectCurrentPaths (home : AbsPath) (isM inWalk : RelPath → Bool)
    (s : SecretsF) (fs : Fs) (hwf : Fs.wf fs) (r : RelPath) :
    r ∈ collectCurrentPaths home isM inWalk s fs ↔
      ∃ n, fsLookup fs (home ++ r) = some n ∧ n ≠ FsNode.dir ∧
        inWalk r = true ∧ (isM r || cipherPred s r) = true := by
  constructor
  · intro h
    simp only [collectCurrentPaths, List.mem_filterMap] at h
    obtain ⟨⟨k, n⟩, hmem, hkeep⟩ := h
    simp only [currentKeep] at hkeep
    split at hkeep
    · cases hkeep
    · rename_i r' hstrip
      split at hkeep
      · rename_i hcond
        injection hkeep with hr'
        simp only [Bool.and_eq_true, decide_eq_true_eq] at hcond
        rw [← hr']
        have hk : k = home ++ r' := (stripPre_eq_some home k r').mp hstrip
        rw [hk] at hmem
        exact ⟨n, alookup_mem fs _ n hmem hwf, hcond.1.1, hcond.1.2, hcond.2⟩
      · cases hkeep
  · intro ⟨n, hlook, hdir, hwalk, hpred⟩
    simp only [collectCurrentPaths, List.mem_filterMap]
    refine ⟨(home ++ r, n), mem_alookup fs _ n hlook, ?_⟩
    simp only [currentKeep]
    rw [(stripPre_eq_some home (home ++ r) r).mpr rfl]
    simp [hdir, hwalk, hpred]

theorem existsFollow_file (fs : Fs) (k : AbsPath) (d : String) (ex : Bool)
    (hlook : fsLookup fs k = some (.file d ex)) :
    existsFollow fs 40 k = true := by
  show existsFollow fs (39 + 1) k = true
  simp [existsFollow, hlook]

/-- C1 amended: if deploy of revision R succeeds, an immediately
following verify of R with secrets_mode = skip (strict or not, with no
intervening changes) yields a clean report, PROVIDED no symlink entry of
the target is left dangling by the deploy (verify tests existence with
`Path::exists`, which follows symlinks, so a symlink whose symbolically
validated target does not exist is reported `missing`), and — as the
configuration loader enforces by forcing plaintext paths into the
ignore set — no secret rule's plaintext path is managed or equal to a
ciphertext rule path. -/
theorem C1_deploy_then_verify_amended (home : AbsPath)
    (isM inWalk : RelPath → Bool) (s : SecretsF) (dec : String → Option String)
    (g : GitState) (fs0 fs1 : Fs) (strict : Bool)
    (hwf : Fs.wf fs0)
    (hok : deployFs home isM inWalk s dec g fs0 = .ok fs1)
    (hdangling : ∀ r, (r, "120000") ∈ collectTargetPaths isM s g →
      existsFollow fs1 40 (home ++ r) = true)
    (hrules : s.enabled = true → ∀ rule ∈ s.rules,
      isM rule.path = false ∧ s.isCiphertextRulePath rule.path = false) :
    ∃ rep, verifyFs home isM inWalk s g fs1 strict dec .skip = .ok rep ∧
      rep.isClean = true := by
  cases happT : applyTargetList home g fs0 (collectTargetPaths isM s g) with
  | error e =>
    simp only [deployFs, happT] at hok
    exact (Except.noConfusion hok)
  | ok fsT =>
  cases happS : applySecrets home s dec g fsT with
  | error e =>
    simp only [deployFs, happT, happS] at hok
    exact (Except.noConfusion hok)
  | ok fsS =>
  have hok1 : deleteMissing home fsS (collectCurrentPaths home isM inWalk s fs0)
      ((collectTargetPaths isM s g).map Prod.fst) = fs1 := by
    simpa [deployFs, happT, happS] using hok
  obtain ⟨hwfT, hTval, hTframe⟩ :=
    applyTargetList_ok home g (collectTargetPaths isM s g) fs0 fsT happT
      (collectTargetPaths_wf isM s g) hwf
  have hsec : Fs.wf fsS ∧
      (s.enabled = true → ∀ rule ∈ s.rules, ∃ d ex,
        fsLookup fsS (home ++ rule.path) = some (.file d ex)) ∧
      (∀ k, (s.enabled = true → ∀ rule ∈ s.rules, k ≠ home ++ rule.path) →
        fsLookup fsS k = fsLookup fsT k) := by
    by_cases he : s.enabled = true
    · unfold applySecrets at happS
      rw [if_pos he] at happS
      obtain ⟨h1, h2, h3⟩ := applySecretsList_ok home s dec g s.rules fsT fsS happS hwfT
      exact ⟨h1, fun _ => h2, fun k hk => h3 k (hk he)⟩
    · unfold applySecrets at happS
      rw [if_neg he] at happS
      have heq : fsT = fsS := by simpa using happS
      subst heq
      exact ⟨hwfT, fun h => absurd h he, fun k _ => rfl⟩
  obtain ⟨hwfS, hSval, hSframe⟩ := hsec
  have hwf1 : Fs.wf fs1 := by
    rw [← hok1]
    exact deleteMissing_wf home _ fsS _ hwfS
  have hnotplain : ∀ r m, (r, m) ∈ collectTargetPaths isM s g →
      (s.enabled = true → ∀ rule ∈ s.rules, (home ++ r) ≠ home ++ rule.path) := by
    intro r m hm he rule hrule heq
    have hreq : r = rule.path := append_left_cancel_str heq
    have hpred := collectTargetPaths_pred isM s g r m hm
    obtain ⟨hM, hC⟩ := hrules he rule hrule
    rw [hreq, hM] at hpred
    simp [cipherPred, hC] at hpred
  have hNode : ∀ r m, (r, m) ∈ collectTargetPaths isM s g →
      ∃ b, g.showBlob r = some b ∧
        fsLookup fs1 (home ++ r) = some (targetNode m b) := by
    intro r m hm
    obtain ⟨b, hb, hnode⟩ := hTval r m hm
    refine ⟨b, hb, ?_⟩
    rw [← hok1]
    rw [deleteMissing_frame home _ fsS _ (home ++ r) ?_]
    · rw [hSframe (home ++ r) (hnotplain r m hm)]
      exact hnode
    · intro r' hr' hnt heq
      exact hnt (append_left_cancel_str heq ▸ List.mem_map_of_mem Prod.fst hm)
  have hexp : verifyExpectedList home g fs1 strict emptyReport
      (collectTargetPaths isM s g) = .ok emptyReport := by
    apply verifyExpectedList_id
    intro r m hm rep
    obtain ⟨b, hb, hnode⟩ := hNode r m hm
    by_cases hmm : m = "120000"
    · subst hmm
      have hsym : fsLookup fs1 (home ++ r) = some (.symlink b) := by
        simpa [targetNode] using hnode
      exact verifyEntry_ok_symlink home g fs1 strict rep r b
        (hdangling r hm) hsym hb
    · have hfile : fsLookup fs1 (home ++ r) =
          some (.file b (decide (m = "100755"))) := by
        simpa [targetNode, hmm] using hnode
      exact verifyEntry_ok_file home g fs1 strict rep r m b
        (decide (m = "100755")) hmm (existsFollow_file fs1 _ b _ hfile) hfile hb
        (Or.inr rfl)
  have hunexp : ∀ r ∈ collectCurrentPaths home isM inWalk s fs1,
      r ∈ (collectTargetPaths isM s g).map Prod.fst := by
    intro r hr
    rw [mem_collectCurrentPaths home isM inWalk s fs1 hwf1 r] at hr
    obtain ⟨n, hlook, hdir, hwalk, hpred⟩ := hr
    by_contra hnt
    have hnp : s.enabled = true → ∀ rule ∈ s.rules,
        (home ++ r) ≠ home ++ rule.path := by
      intro he rule hrule heq
      obtain ⟨hM, hC⟩ := hrules he rule hrule
      have hreq : r = rule.path := append_left_cancel_str heq
      rw [hreq, hM] at hpred
      simp [cipherPred, hC] at hpred
    by_cases hcur : r ∈ collectCurrentPaths home isM inWalk s fs0
    · have hnone := deleteMissing_none home
        (collectCurrentPaths home isM inWalk s fs0) fsS
        ((collectTargetPaths isM s g).map Prod.fst) r hwfS hcur hnt
      rw [hok1] at hnone
      rw [hnone] at hlook
      cases hlook
    · have hfr : fsLookup fs1 (home ++ r) = fsLookup fs0 (home ++ r) := by
        rw [← hok1]
        rw [deleteMissing_frame home _ fsS _ (home ++ r) ?_]
        · rw [hSframe (home ++ r) hnp]
          apply hTframe
          intro r' hr' heq
          exact hnt (append_left_cancel_str heq ▸ hr')
        · intro r' hr' hnt' heq
          exact hcur (append_left_cancel_str heq ▸ hr')
      apply hcur
      rw [mem_collectCurrentPaths home isM inWalk s fs0 hwf r]
      exact ⟨n, by rw [← hfr]; exact hlook, hdir, hwalk, hpred⟩
  refine ⟨emptyReport, ?_, rfl⟩
  have hfilter : (collectCurrentPaths home isM inWalk s fs1).filter
      (fun r => !decide (r ∈ (collectTargetPaths isM s g).map Prod.fst)) = [] := by
    rw [List.filter_eq_nil_iff]
    intro r hr
    simp [hunexp r hr]
  simp only [verifyFs, hexp]
  cases strict
  · simp [verifySecretsPhase]
  · simp [verifySecretsPhase, hfilter, emptyReport]

/-- C1 counterexample: the repository holds a single symlink entry `.l`
whose blob target `missing` validates (it stays under home) but dangles.
Deploy succeeds and creates the symlink; verify (strict = false,
secrets_mode = skip, nothing else touched) tests existence with
`Path::exists`, which follows the link, finds nothing, and reports the
entry `missing` — the report is not clean. -/
theorem C1_deploy_then_verify_counterexample :
    ∃ fs1 rep,
      deployFs ["h"] (fun _ => true) (fun _ => true) ⟨false, ".age", []⟩
        (fun _ => none) ⟨[([".l"], "120000")], [([".l"], "missing")]⟩ [] =
        .ok fs1 ∧
      verifyFs ["h"] (fun _ => true) (fun _ => true) ⟨false, ".age", []⟩
        ⟨[([".l"], "120000")], [([".l"], "missing")]⟩ fs1 false (fun _ => none)
        .skip = .ok rep ∧
      rep.isClean = false := by
  exact ⟨_, _, rfl, rfl, rfl⟩

/-- Concrete instance of the amended C1: deploying a regular file and
verifying strictly yields a clean report. -/
theorem C1_deploy_then_verify_witness :
    ∃ rep,
      verifyFs ["h"] (fun _ => true) (fun _ => true) ⟨false, ".age", []⟩
        ⟨[(["f"], "100644")], [(["f"], "x")]⟩
        [((["h", "f"] : AbsPath), FsNode.file "x" false)] true (fun _ => none)
        .skip = .ok rep ∧ rep.isClean = true := by
  exact C1_deploy_then_verify_amended ["h"] (fun _ => true) (fun _ => true)
    ⟨false, ".age", []⟩ (fun _ => none) ⟨[(["f"], "100644")], [(["f"], "x")]⟩ []
    [((["h", "f"] : AbsPath), FsNode.file "x" false)] true (by simp [Fs.wf]) rfl
    (by
      intro r h
      have hc : collectTargetPaths (fun _ => true) ⟨false, ".age", []⟩
          ⟨[(["f"], "100644")], [(["f"], "x")]⟩ = [(["f"], "100644")] := rfl
      rw [hc] at h
      simp only [List.mem_singleton, Prod.mk.injEq] at h
      exact absurd h.2 (by decide))
    (fun h => absurd h (by decide))
